import Mathlib

set_option maxRecDepth 100000

/-!
Verification of the TidyWindow catalog-audit tools
(`tools/check_package_availability.py` and `tools/suggest_catalog_fixes.py`).

The Python sources are shallowly embedded below.  Strings are Lean `String`s
(list-of-`Char` backed); Python floats are modelled as exact rationals `ℚ`
(all constants involved — 0.2, 0.1, 0.05 and `SequenceMatcher` ratios — are
exactly representable and the claims only involve order/equality facts that
are insensitive to the float/rational distinction); Python `None` is `Option`;
a raised exception is an `Except.error`.  Functions that shell out to an
external process are modelled by passing the observed `(exit code, output)`
pair (or an abstract status function) as an argument.  All definitions are
structurally recursive so that concrete instances reduce by `decide`/`simp`.

Python string primitives (`str.strip`, `str.split`, `str.splitlines`,
`str.lower`, substring test, `re.split(r"\s{2,}", ·)`) are modelled over the
ASCII fragment actually produced by the tools: `lower` is ASCII `Char.toLower`
and the line terminators are `\n`, `\r\n`, `\r`.
-/

/-- Python whitespace test (`str.isspace` over the six ASCII whitespace
characters: space, tab, newline, carriage return, vertical tab, form feed). -/
def pyIsWs (c : Char) : Bool :=
  c == ' ' || c == Char.ofNat 9 || c == Char.ofNat 10 ||
    c == Char.ofNat 13 || c == Char.ofNat 11 || c == Char.ofNat 12

/-- Python `str.lower` (ASCII). -/
def pyLower (s : String) : String := ⟨s.data.map Char.toLower⟩

/-- Test whether the second list is an initial segment of the first
(Python `str.startswith`). -/
def startsWithL : List Char → List Char → Bool
  | _, [] => true
  | [], _ :: _ => false
  | c :: cs, d :: ds => c == d && startsWithL cs ds

/-- Substring containment, Python `needle in hay`. -/
def containsSub : List Char → List Char → Bool
  | [], sub => sub.isEmpty
  | c :: t, sub => startsWithL (c :: t) sub || containsSub t sub

/-- Python `needle in hay` on strings. -/
def strContains (hay needle : String) : Bool := containsSub hay.data needle.data

/-- Python `str.strip()` on a character list. -/
def pyStripL (l : List Char) : List Char :=
  ((l.dropWhile pyIsWs).reverse.dropWhile pyIsWs).reverse

/-- Python `str.strip()`. -/
def pyStrip (s : String) : String := ⟨pyStripL s.data⟩

/-- Python `str.rstrip()` on a character list. -/
def pyRstripL (l : List Char) : List Char := (l.reverse.dropWhile pyIsWs).reverse

/-- Python `str.rstrip()`. -/
def pyRstrip (s : String) : String := ⟨pyRstripL s.data⟩

/-- Worker for `pySplitlines`: split at `\n`, `\r\n` or `\r`, no trailing
empty line (Python `str.splitlines`). -/
def splitlinesAux : List Char → List Char → List (List Char)
  | [], acc => if acc.isEmpty then [] else [acc.reverse]
  | c :: rest, acc =>
    if c == Char.ofNat 13 then
      match rest with
      | d :: rest2 =>
        if d == Char.ofNat 10 then acc.reverse :: splitlinesAux rest2 []
        else acc.reverse :: splitlinesAux (d :: rest2) []
      | [] => [acc.reverse]
    else if c == Char.ofNat 10 then acc.reverse :: splitlinesAux rest []
    else splitlinesAux rest (c :: acc)

/-- Python `str.splitlines`. -/
def pySplitlines (s : String) : List String :=
  (splitlinesAux s.data []).map fun l => ⟨l⟩

/-- Worker for `pyWords`: maximal runs of non-whitespace characters
(Python `str.split()` with no separator argument). -/
def pyWordsAux : List Char → List Char → List (List Char)
  | [], acc => if acc.isEmpty then [] else [acc.reverse]
  | c :: rest, acc =>
    if pyIsWs c then
      if acc.isEmpty then pyWordsAux rest [] else acc.reverse :: pyWordsAux rest []
    else pyWordsAux rest (c :: acc)

/-- Python `str.split()`: whitespace-delimited words, empties dropped. -/
def pyWords (l : List Char) : List (List Char) := pyWordsAux l []

/-- Python `" ".join(words)`. -/
def joinSpace : List (List Char) → List Char
  | [] => []
  | [w] => w
  | w :: w2 :: ws => w ++ ' ' :: joinSpace (w2 :: ws)

/-- Whitespace-collapse: Python `" ".join(output.split())`. -/
def pyCollapse (s : String) : String := ⟨joinSpace (pyWords s.data)⟩

/-- `summarize_output` from `check_package_availability.py`: collapse all
whitespace runs to single spaces, truncate to `limit` characters with a
`"..."` suffix when too long. -/
def summarize_output (output : String) (limit : Nat := 200) : String :=
  if output = "" then ""
  else
    let snippet := pyCollapse output
    if snippet.length ≤ limit then snippet
    else String.mk (pyRstripL (snippet.data.take limit)) ++ "..."

/-- Worker for `splitCols`: `re.split(r"\s{2,}", ·)` — separators are maximal
whitespace runs of length at least two.  The Boolean is true while consuming
a separator run. -/
def splitColsAux : List Char → List Char → Bool → List (List Char)
  | [], _, true => [[]]
  | [], acc, false => [acc.reverse]
  | c :: rest, _, true =>
    if pyIsWs c then splitColsAux rest [] true else splitColsAux rest [c] false
  | c :: rest, acc, false =>
    if pyIsWs c && (match rest.head? with | some d => pyIsWs d | none => false) then
      acc.reverse :: splitColsAux rest [] true
    else splitColsAux rest (c :: acc) false

/-- Python `re.split(r"\s{2,}", ·)` on a character list. -/
def splitCols (l : List Char) : List (List Char) := splitColsAux l [] false

/-!
Model of CPython `difflib.SequenceMatcher(None, a, b)` as used by
`compute_similarity` (`isjunk=None`, `autojunk=True`).

`ratio()` is `2*M/T` where `T = len(a)+len(b)` and `M` is the total size of
the matching blocks found by recursively applying `find_longest_match`:
first the longest junk-free matching block (ties broken by smallest start in
`a`, then smallest start in `b` — the documented behaviour of the `j2len`
scan), then that block is extended over matching junk elements on both sides
(the four `while` loops of `find_longest_match`, realised here as fuel-bounded
loops whose fuel provably dominates their iteration count).  With
`isjunk=None`, an element is junk exactly when `autojunk` marks it popular:
`len(b) >= 200` and the element occurs more than `len(b) // 100 + 1` times
in `b`.
-/

/-- Autojunk test of `SequenceMatcher.__chain_b`: a character of `b` is junk
iff `b` has at least 200 characters and the character occurs more than
`len(b) / 100 + 1` times in `b`. -/
def pyIsJunk (b : List Char) (c : Char) : Bool :=
  decide (200 ≤ b.length) && decide (b.length / 100 + 1 < b.count c)

/-- Length of the junk-free matching run of two suffixes: how many initial
positions match pairwise with the `b`-side character not junk.  This is the
quantity the `j2len` dynamic program of `find_longest_match` computes for
each pair of end positions. -/
def runLen (bj : Char → Bool) : List Char → List Char → Nat
  | x :: xs, y :: ys =>
    if x = y ∧ bj y = false then runLen bj xs ys + 1 else 0
  | _, _ => 0

/-- Junk-free matching run starting at positions `(i, j)` inside the window
`a[:ahi]`, `b[:bhi]`. -/
def jfRun (a b : List Char) (bj : Char → Bool) (ahi bhi i j : Nat) : Nat :=
  runLen bj ((a.take ahi).drop i) ((b.take bhi).drop j)

/-- One step of the `find_longest_match` scan: replace the current best block
`(besti, bestj, bestsize)` when the junk-free run at the scanned pair is
strictly longer (CPython updates only on `k > bestsize`, which yields the
smallest `i`, then smallest `j`, among maximal blocks). -/
def flmStep (a b : List Char) (bj : Char → Bool) (ahi bhi : Nat)
    (best : Nat × Nat × Nat) (p : Nat × Nat) : Nat × Nat × Nat :=
  if best.2.2 < jfRun a b bj ahi bhi p.1 p.2 then
    (p.1, p.2, jfRun a b bj ahi bhi p.1 p.2)
  else best

/-- All start pairs of the window, scanned in `a`-major order. -/
def flmPairs (alo ahi blo bhi : Nat) : List (Nat × Nat) :=
  (List.range' alo (ahi - alo)).flatMap fun i =>
    (List.range' blo (bhi - blo)).map fun j => (i, j)

/-- The longest junk-free matching block of the window (before junk
extension); `(alo, blo, 0)` when there is none. -/
def bestJfMatch (a b : List Char) (bj : Char → Bool)
    (alo ahi blo bhi : Nat) : Nat × Nat × Nat :=
  (flmPairs alo ahi blo bhi).foldl (flmStep a b bj ahi bhi) (alo, blo, 0)

/-- First `while` loop of `find_longest_match`: extend backwards over
matching non-junk characters.  Fuel: the loop decrements `besti`, so any
fuel at least `besti` is exact. -/
def extNonJunkBack (a b : List Char) (bj : Char → Bool) (alo blo : Nat) :
    Nat → Nat × Nat × Nat → Nat × Nat × Nat
  | 0, s => s
  | fuel + 1, (i, j, k) =>
    if alo < i ∧ blo < j ∧ bj (b.getD (j - 1) ' ') = false ∧
        a.getD (i - 1) ' ' = b.getD (j - 1) ' ' then
      extNonJunkBack a b bj alo blo fuel (i - 1, j - 1, k + 1)
    else (i, j, k)

/-- Second `while` loop: extend forwards over matching non-junk characters.
Fuel: the loop increments `bestsize` while `besti + bestsize < ahi`, so any
fuel at least `ahi` is exact. -/
def extNonJunkFwd (a b : List Char) (bj : Char → Bool) (ahi bhi : Nat) :
    Nat → Nat × Nat × Nat → Nat × Nat × Nat
  | 0, s => s
  | fuel + 1, (i, j, k) =>
    if i + k < ahi ∧ j + k < bhi ∧ bj (b.getD (j + k) ' ') = false ∧
        a.getD (i + k) ' ' = b.getD (j + k) ' ' then
      extNonJunkFwd a b bj ahi bhi fuel (i, j, k + 1)
    else (i, j, k)

/-- Third `while` loop: extend backwards over matching junk characters. -/
def extJunkBack (a b : List Char) (bj : Char → Bool) (alo blo : Nat) :
    Nat → Nat × Nat × Nat → Nat × Nat × Nat
  | 0, s => s
  | fuel + 1, (i, j, k) =>
    if alo < i ∧ blo < j ∧ bj (b.getD (j - 1) ' ') = true ∧
        a.getD (i - 1) ' ' = b.getD (j - 1) ' ' then
      extJunkBack a b bj alo blo fuel (i - 1, j - 1, k + 1)
    else (i, j, k)

/-- Fourth `while` loop: extend forwards over matching junk characters. -/
def extJunkFwd (a b : List Char) (bj : Char → Bool) (ahi bhi : Nat) :
    Nat → Nat × Nat × Nat → Nat × Nat × Nat
  | 0, s => s
  | fuel + 1, (i, j, k) =>
    if i + k < ahi ∧ j + k < bhi ∧ bj (b.getD (j + k) ' ') = true ∧
        a.getD (i + k) ' ' = b.getD (j + k) ' ' then
      extJunkFwd a b bj ahi bhi fuel (i, j, k + 1)
    else (i, j, k)

/-- `SequenceMatcher.find_longest_match` on the window
`a[alo:ahi]`, `b[blo:bhi]`. -/
def find_longest_match (a b : List Char) (bj : Char → Bool)
    (alo ahi blo bhi : Nat) : Nat × Nat × Nat :=
  let s0 := bestJfMatch a b bj alo ahi blo bhi
  let s1 := extNonJunkBack a b bj alo blo s0.1 s0
  let s2 := extNonJunkFwd a b bj ahi bhi ahi s1
  let s3 := extJunkBack a b bj alo blo s2.1 s2
  extJunkFwd a b bj ahi bhi ahi s3

/-- Total size of the matching blocks of a window
(`SequenceMatcher.get_matching_blocks`, summed): recursively split at the
longest match.  The fuel dominates the recursion depth; `mTotal` supplies a
provably sufficient amount. -/
def mTotalF (a b : List Char) (bj : Char → Bool) :
    Nat → Nat → Nat → Nat → Nat → Nat
  | 0, _, _, _, _ => 0
  | fuel + 1, alo, ahi, blo, bhi =>
    let m := find_longest_match a b bj alo ahi blo bhi
    if m.2.2 = 0 then 0
    else
      mTotalF a b bj fuel alo m.1 blo m.2.1 + m.2.2 +
        mTotalF a b bj fuel (m.1 + m.2.2) ahi (m.2.1 + m.2.2) bhi

/-- Total matched size `M` of `SequenceMatcher(None, a, b)`. -/
def mTotal (a b : List Char) : Nat :=
  mTotalF a b (pyIsJunk b) (a.length + b.length + 1) 0 a.length 0 b.length

/-- `SequenceMatcher.ratio()`: `2*M/T`, and `1.0` when both sequences are
empty (`_calculate_ratio`). -/
def pyRatio (a b : List Char) : ℚ :=
  if a.length + b.length = 0 then 1
  else 2 * (mTotal a b : ℚ) / ((a.length : ℚ) + (b.length : ℚ))

/-- `compute_similarity` from `suggest_catalog_fixes.py`: `0.0` when either
string is empty, else the `SequenceMatcher` ratio of the lower-cased
strings. -/
def compute_similarity (a b : String) : ℚ :=
  if a = "" ∨ b = "" then 0
  else pyRatio (a.data.map Char.toLower) (b.data.map Char.toLower)

/-! Data model shared by the two tools. -/

/-- `PackageEntry` from `check_package_availability.py` (`file_path` kept as
a string). -/
structure PackageEntry where
  package_id : String
  manager : String
  command : String
  name : String
  file_path : String
  index : Nat
deriving DecidableEq, Repr

/-- `SearchCandidate` from `suggest_catalog_fixes.py` (`metadata` as an
association list in insertion order). -/
structure SearchCandidate where
  manager : String
  identifier : String
  name : String
  metadata : List (String × String)
  query : String
  raw : String
deriving DecidableEq, Repr

/-- `ScoredSuggestion` from `suggest_catalog_fixes.py`. -/
structure ScoredSuggestion where
  score : ℚ
  manager : String
  identifier : String
  name : String
  metadata : List (String × String)
  query : String
  raw : String
deriving DecidableEq

/-! The suggestion scorer (`score_candidates` and its helpers). -/

/-- The `scores` list built in the loop body of `score_candidates`: package
id versus candidate identifier always; the two display-name comparisons when
the entry has a name; the manager-native id comparison when one is known
(Python truthiness: `None` and the empty string are both falsy). -/
def score_list (entry : PackageEntry) (manager_identifier : Option String)
    (c : SearchCandidate) : List ℚ :=
  [compute_similarity entry.package_id c.identifier] ++
    (if entry.name ≠ "" then
      [compute_similarity entry.name c.name,
       compute_similarity entry.name c.identifier]
    else []) ++
    (if (manager_identifier.getD "") ≠ "" then
      [compute_similarity (manager_identifier.getD "") c.identifier]
    else [])

/-- `base = max(scores or [0.0])` — the scores list is never empty, so this
is the maximum of its head and tail. -/
def score_base (entry : PackageEntry) (manager_identifier : Option String)
    (c : SearchCandidate) : ℚ :=
  ((score_list entry manager_identifier c).tail).foldl max
    ((score_list entry manager_identifier c).headD 0)

/-- Score after the `+0.2` exact-package-id bonus (clamped at `1.0`). -/
def score_b1 (entry : PackageEntry) (manager_identifier : Option String)
    (c : SearchCandidate) : ℚ :=
  if pyLower c.identifier = pyLower entry.package_id then
    min (score_base entry manager_identifier c + 1 / 5) 1
  else score_base entry manager_identifier c

/-- Score after the `+0.1` exact-manager-native-id bonus (clamped). -/
def score_b2 (entry : PackageEntry) (manager_identifier : Option String)
    (c : SearchCandidate) : ℚ :=
  if (manager_identifier.getD "") ≠ "" ∧
      pyLower c.identifier = pyLower (manager_identifier.getD "") then
    min (score_b1 entry manager_identifier c + 1 / 10) 1
  else score_b1 entry manager_identifier c

/-- Final per-candidate score: after the `+0.05` same-manager bonus
(case-sensitive string equality, clamped). -/
def score_one (entry : PackageEntry) (manager_identifier : Option String)
    (c : SearchCandidate) : ℚ :=
  if c.manager = entry.manager then
    min (score_b2 entry manager_identifier c + 1 / 20) 1
  else score_b2 entry manager_identifier c

/-- `score_candidates`: score every candidate, then stable-sort by score
descending (Python `list.sort(key=..., reverse=True)` is a stable sort). -/
def score_candidates (entry : PackageEntry)
    (manager_identifier : Option String) (candidates : List SearchCandidate) :
    List ScoredSuggestion :=
  (candidates.map fun c =>
    { score := score_one entry manager_identifier c
      manager := c.manager
      identifier := c.identifier
      name := c.name
      metadata := c.metadata
      query := c.query
      raw := c.raw }).mergeSort fun x y => decide (y.score ≤ x.score)

/-! Candidate de-duplication. -/

/-- The dictionary key of `dedupe_candidates`: `(manager, identifier.lower())`. -/
def dedupKey (c : SearchCandidate) : String × String :=
  (c.manager, pyLower c.identifier)

/-- `dedupe_candidates`: insert into a dictionary keyed by `dedupKey`,
keeping the first candidate for each key; the result lists the stored values
in insertion order. -/
def dedupe_candidates (candidates : List SearchCandidate) :
    List SearchCandidate :=
  candidates.foldl
    (fun seen c =>
      if seen.any fun d => dedupKey d == dedupKey c then seen
      else seen ++ [c])
    []

/-- Modelled from the spec, for comparison with `dedupe_candidates`: keep
exactly the first occurrence of each `(manager, lower-cased identifier)` key,
in discovery order. -/
def keepFirstByKey : List SearchCandidate → List SearchCandidate
  | [] => []
  | c :: rest =>
    c :: keepFirstByKey (rest.filter fun d => !(dedupKey d == dedupKey c))
termination_by l => l.length
decreasing_by
  simpa using Nat.lt_succ_of_le (List.length_filter_le _ rest)

/-! The three candidate-search parsers of `suggest_catalog_fixes.py`.  Each
search function is modelled on the observed `(exit code, combined output)`
of the external process; a raised `SearchError` is an `Except.error`. -/

/-- Python `text.split(sep)` for a single-character separator, worker. -/
def splitOnCharAux (sep : Char) : List Char → List Char → List (List Char)
  | [], acc => [acc.reverse]
  | c :: rest, acc =>
    if c == sep then acc.reverse :: splitOnCharAux sep rest []
    else splitOnCharAux sep rest (c :: acc)

/-- Python `text.split(sep)` for a single-character separator. -/
def splitOnChar (sep : Char) (l : List Char) : List (List Char) :=
  splitOnCharAux sep l []

/-- `parse_winget_output`: keep non-blank lines (right-stripped), skip the
`Name ...` header and all-dash separator rows, split the stripped line on
two-or-more-space runs, and require at least two columns (name, identifier);
third and fourth columns become `version` and `source` metadata. -/
def parse_winget_output (output query : String) : List SearchCandidate :=
  let lines := ((pySplitlines output).filter fun l => pyStrip l ≠ "").map pyRstrip
  lines.filterMap fun line =>
    if startsWithL (pyLower line).data ("name ".data) then none
    else if pyStrip line ≠ "" ∧ (pyStrip line).data.all (· == '-') then none
    else
      let columns := splitCols (pyStrip line).data
      if columns.length < 2 then none
      else
        some
          { manager := "winget"
            identifier := ⟨columns.getD 1 []⟩
            name := ⟨columns.getD 0 []⟩
            metadata :=
              (if 3 ≤ columns.length then
                [("version", (⟨columns.getD 2 []⟩ : String))] else []) ++
              (if 4 ≤ columns.length then
                [("source", (⟨columns.getD 3 []⟩ : String))] else [])
            query := query
            raw := line }

/-- `search_winget`: raise a recoverable `SearchError` when the exit code is
nonzero and the stripped output is empty, else parse. -/
def search_winget_result (code : Int) (output query : String) :
    Except String (List SearchCandidate) :=
  if code ≠ 0 ∧ pyStrip output = "" then
    Except.error "winget search returned no output"
  else Except.ok (parse_winget_output output query)

/-- The parsing loop of `search_choco`: pipe-delimited `identifier|version`
rows, blank or bar-free lines skipped. -/
def parse_choco_output (output query : String) : List SearchCandidate :=
  (pySplitlines output).filterMap fun rawLine =>
    let line := pyStrip rawLine
    if line = "" ∨ strContains line ("|") = false then none
    else
      let parts := splitOnChar (Char.ofNat 124) line.data
      let identifier := (⟨pyStripL (parts.getD 0 [])⟩ : String)
      let version :=
        if 2 ≤ parts.length then (⟨pyStripL (parts.getD 1 [])⟩ : String) else ""
      some
        { manager := "choco"
          identifier := identifier
          name := identifier
          metadata := [("version", version)]
          query := query
          raw := line }

/-- `search_choco`: empty result on the `no packages found` marker, a
recoverable `SearchError` when the exit code is nonzero and the stripped
output is empty, else the parsed rows. -/
def search_choco_result (code : Int) (output query : String) :
    Except String (List SearchCandidate) :=
  if strContains (pyLower output) ("no packages found") then Except.ok []
  else if code ≠ 0 ∧ pyStrip output = "" then
    Except.error "choco search returned no output"
  else Except.ok (parse_choco_output output query)

/-- The parsing loop of `search_scoop`, with its mid-loop `return []` when a
`no matches found` diagnostic line appears (discarding candidates already
accumulated). -/
def scoopLoopAux (query : String) :
    List String → List SearchCandidate → List SearchCandidate
  | [], acc => acc.reverse
  | rawLine :: rest, acc =>
    let stripped := pyStrip rawLine
    if stripped = "" then scoopLoopAux query rest acc
    else
      let lowered := pyLower stripped
      if startsWithL lowered.data ("name ".data) ||
          startsWithL lowered.data ("----".data) then
        scoopLoopAux query rest acc
      else if startsWithL lowered.data ("warn".data) then
        scoopLoopAux query rest acc
      else if strContains lowered ("no matches found") then []
      else
        let columns := splitCols stripped.data
        if columns.length < 1 then scoopLoopAux query rest acc
        else
          let identifier := (⟨columns.getD 0 []⟩ : String)
          if identifier = "" ∨ pyLower identifier = "name" ∨
              pyLower identifier = "warn" then
            scoopLoopAux query rest acc
          else
            let bucket :=
              if 2 ≤ columns.length then (⟨columns.getD 1 []⟩ : String) else ""
            scoopLoopAux query rest
              ({ manager := "scoop"
                 identifier := identifier
                 name := identifier
                 metadata := if bucket ≠ "" then [("bucket", bucket)] else []
                 query := query
                 raw := rawLine } :: acc)

/-- `search_scoop`: empty result on the `no matches found` marker, a
recoverable `SearchError` when the exit code is nonzero and the stripped
output is empty, else the parsed rows. -/
def search_scoop_result (code : Int) (output query : String) :
    Except String (List SearchCandidate) :=
  if strContains (pyLower output) ("no matches found") then Except.ok []
  else if code ≠ 0 ∧ pyStrip output = "" then
    Except.error "scoop search returned no output"
  else Except.ok (scoopLoopAux query (pySplitlines output) [])

/-! The result classifier of `check_package_availability.py`. -/

/-- ASCII apostrophe, kept out of string literals. -/
def apoStr : String := String.singleton (Char.ofNat 39)

/-- `WINGET_NOT_FOUND_MARKERS`. -/
def WINGET_NOT_FOUND_MARKERS : List String :=
  ["no package found matching input criteria",
   "no packages found matching input criteria",
   "no package found matching the input criteria",
   "no application found matching input criteria",
   "no app found matching input criteria"]

/-- `CHOCO_NOT_FOUND_MARKERS`. -/
def CHOCO_NOT_FOUND_MARKERS : List String :=
  ["0 packages found", "no packages found", "not installed. cannot find"]

/-- `SCOOP_NOT_FOUND_MARKERS`. -/
def SCOOP_NOT_FOUND_MARKERS : List String :=
  ["couldn" ++ apoStr ++ "t find manifest", "could not find manifest",
   "no matches found"]

/-- The per-line match test of the scoop branch of
`interpret_manager_result`: the lowered (stripped) line starts with the
lowered identifier followed by a space or an opening parenthesis, or equals
it. -/
def scoopLineOk (identifier line : String) : Bool :=
  startsWithL (pyLower line).data ((pyLower identifier).data ++ [' ']) ||
    startsWithL (pyLower line).data ((pyLower identifier).data ++ [Char.ofNat 40]) ||
    (pyLower line == pyLower identifier)

/-- The stripped non-blank output lines used by the scoop branch. -/
def scoopLines (output : String) : List String :=
  ((pySplitlines output).map pyStrip).filter fun l => !(l == "")

/-- `interpret_manager_result`: classify `(manager, exit code, output)` into
a status and message. -/
def interpret_manager_result (manager identifier : String)
    (return_code : Int) (output : String) : String × String :=
  let normalized := pyLower output
  let manager_key := pyLower manager
  if manager_key = "winget" then
    if WINGET_NOT_FOUND_MARKERS.any fun m => strContains normalized m then
      ("not-found",
        "winget reported no matching package. Output: " ++ summarize_output output)
    else if return_code ≠ 0 then ("error", summarize_output output)
    else ("ok", "winget show located the package.")
  else if manager_key = "choco" ∨ manager_key = "chocolatey" then
    if CHOCO_NOT_FOUND_MARKERS.any fun m => strContains normalized m then
      ("not-found",
        "Chocolatey reported no matching package. Output: " ++ summarize_output output)
    else if return_code ≠ 0 then ("error", summarize_output output)
    else ("ok", "Chocolatey info located the package.")
  else if manager_key = "scoop" then
    if SCOOP_NOT_FOUND_MARKERS.any fun m => strContains normalized m then
      ("not-found",
        "Scoop reported no matching package. Output: " ++ summarize_output output)
    else
      let lines := scoopLines output
      if return_code ≠ 0 then ("error", summarize_output output)
      else if lines.isEmpty then
        ("not-found",
          "Scoop returned no search results. Output: " ++ summarize_output output)
      else if lines.any fun line => scoopLineOk identifier line then
        ("ok", "Scoop search located the package.")
      else ("not-found", summarize_output output)
  else ("skipped", "No verifier implemented for this manager.")

/-! Command tokenisation (`split_command`) and choco identifier extraction. -/

/-- The whitespace characters of `shlex` (space, tab, carriage return,
newline). -/
def shlexWsChar (c : Char) : Bool :=
  c == ' ' || c == Char.ofNat 9 || c == Char.ofNat 13 || c == Char.ofNat 10

/-- The quote characters of `shlex` (double and single quote). -/
def shlexQuote (c : Char) : Bool :=
  c == Char.ofNat 34 || c == Char.ofNat 39

/-- `shlex.split(command, posix=False)`: whitespace-separated tokens, quoted
substrings kept intact with their quotes; `none` models the `ValueError`
raised on an unterminated quote.  Third argument: the currently open quote
character.  Per the non-posix `shlex` state machine, a quote opens quote
mode only at the start of a token, the matching close quote ends the token
immediately, and a quote inside a word is an ordinary character. -/
def shlexAux : List Char → List Char → Option Char → Option (List String)
  | [], _, some _ => none
  | [], acc, none =>
    some (if acc.isEmpty then [] else [(⟨acc.reverse⟩ : String)])
  | c :: rest, acc, some q =>
    if c == q then
      (shlexAux rest [] none).map fun ts => (⟨(c :: acc).reverse⟩ : String) :: ts
    else shlexAux rest (c :: acc) (some q)
  | c :: rest, acc, none =>
    if shlexWsChar c then
      if acc.isEmpty then shlexAux rest [] none
      else (shlexAux rest [] none).map fun ts => (⟨acc.reverse⟩ : String) :: ts
    else if acc.isEmpty && shlexQuote c then shlexAux rest [c] (some c)
    else shlexAux rest (c :: acc) none

/-- `split_command`: empty list for an empty command, `shlex` tokenisation,
falling back to naive whitespace splitting when `shlex` raises. -/
def split_command (command : String) : List String :=
  if command = "" then []
  else
    match shlexAux command.data [] none with
    | some tokens => tokens
    | none => (pyWords command.data).map fun w => ⟨w⟩

/-- Python `token.strip("\x22'")`: remove surrounding quote characters. -/
def pyStripQuotesL (l : List Char) : List Char :=
  ((l.dropWhile shlexQuote).reverse.dropWhile shlexQuote).reverse

/-- The verb set of `extract_choco_identifier`. -/
def CHOCO_VERBS : List String := ["install", "upgrade", "info", "search", "uninstall"]

/-- The token loop of `extract_choco_identifier`: find a `choco` invocation
token, require the next token to be a known verb, then return the first
following token that does not start with `-` (quotes stripped); on failure
resume scanning after the invocation token. -/
def chocoScan : List String → Option String
  | [] => none
  | tok :: rest =>
    if !(pyLower tok == "choco") then chocoScan rest
    else
      match rest with
      | [] => none
      | verb :: rest2 =>
        if !(CHOCO_VERBS.contains (pyLower verb)) then chocoScan rest
        else
          match rest2.dropWhile fun t => startsWithL t.data [Char.ofNat 45] with
          | [] => chocoScan rest
          | cand :: _ => some (⟨pyStripQuotesL cand.data⟩ : String)

/-- `extract_choco_identifier`. -/
def extract_choco_identifier (command : String) : Option String :=
  if command = "" then none else chocoScan (split_command command)

/-! Exit-code computation of `check_package_availability.main`.  The file
discovery, YAML loading and the external checks are I/O; the pure exit-code
logic is modelled over the matched files, the filtered entries and an
abstract per-entry status (the `status` field `check_package` would
produce). -/

/-- Exit code of `main`: `1` when no catalog file matched the glob, `0`
(after a message) when no entry survives the filters, else `1` exactly when
some entry is `not-found`/`error`, or — under `--strict` — `skipped`. -/
def availability_exit_code (package_files : List String)
    (entries : List PackageEntry) (strict : Bool)
    (statusOf : PackageEntry → String) : Nat :=
  if package_files.isEmpty then 1
  else if entries.isEmpty then 0
  else
    let results := entries.map statusOf
    let base_failure := results.any fun s => s == "not-found" || s == "error"
    let has_failure :=
      if strict then base_failure || results.any fun s => s == "skipped"
      else base_failure
    if has_failure then 1 else 0

/-! Auxiliary predicates used by theorem statements. -/

/-- Whether a modelled search call raised a recoverable `SearchError`. -/
def isSearchFailure : Except String (List SearchCandidate) → Bool
  | Except.error _ => true
  | Except.ok _ => false

/-- No two adjacent characters are both whitespace. -/
def noWsRunB : List Char → Bool
  | c1 :: c2 :: rest => !(pyIsWs c1 && pyIsWs c2) && noWsRunB (c2 :: rest)
  | _ => true

/-- Every whitespace character is a plain space (hence no newline). -/
def spacesOnlyB (l : List Char) : Bool := l.all fun c => !(pyIsWs c) || c == ' '

/-! ## Claim C8 — choco positional extraction -/

/-- C8 counterexample: the claim asserts that extraction from
`"tool install Foo.Bar --yes"` yields `"Foo.Bar"`, but the invocation token
the extractor locates must be literally `choco`, so this command yields no
identifier at all. -/
theorem extract_choco_requires_choco_token :
    extract_choco_identifier "tool install Foo.Bar --yes" = none := by
  rfl

/-- C8 amended: with the actual invocation token `choco`, the verb
`install` is accepted and the first following non-flag token is returned. -/
theorem extract_choco_install_example :
    extract_choco_identifier "choco install Foo.Bar --yes" = some "Foo.Bar" := by
  rfl

/-! ## Claim C4 — exit code of the availability checker -/

/-- C4 counterexample: with catalog files present but no entry matching the
filters, `main` returns `0`, not the `1` required by the claim. -/
theorem availability_exit_zero_on_empty_filter :
    availability_exit_code ["catalog.yml"] [] false (fun _ => "ok") = 0 := by
  rfl

/-- C4 amended: the exit code is `0` exactly when some catalog file matched
the glob and either no entry matched the filters or no processed entry has
status `not-found`/`error` (under strict mode, also none `skipped`); it is
never larger than `1`. -/
theorem availability_exit_code_spec (package_files : List String)
    (entries : List PackageEntry) (strict : Bool)
    (statusOf : PackageEntry → String) :
    (availability_exit_code package_files entries strict statusOf = 0 ↔
      (package_files ≠ [] ∧
        (entries = [] ∨
          ((entries.map statusOf).any
              (fun s => s == "not-found" || s == "error") = false ∧
            (strict = true →
              (entries.map statusOf).any (fun s => s == "skipped") = false))))) ∧
    availability_exit_code package_files entries strict statusOf ≤ 1 := by
  unfold availability_exit_code
  by_cases hf : package_files.isEmpty
  · simp [hf, List.isEmpty_iff.mp hf]
  · have hf' : package_files ≠ [] := by
      simpa [List.isEmpty_iff] using hf
    by_cases he : entries.isEmpty
    · simp [hf, he, hf', List.isEmpty_iff.mp he]
    · have he' : entries ≠ [] := by
        simpa [List.isEmpty_iff] using he
      cases strict with
      | false =>
        by_cases hb : (entries.map statusOf).any
            (fun s => s == "not-found" || s == "error")
        · simp [hf, he, hf', he', hb]
        · simp [hf, he, hf', he', hb]
      | true =>
        by_cases hb : (entries.map statusOf).any
            (fun s => s == "not-found" || s == "error")
        · simp [hf, he, hf', he', hb]
        · by_cases hs : (entries.map statusOf).any (fun s => s == "skipped")
          · simp [hf, he, hf', he', hb, hs]
          · simp [hf, he, hf', he', hb, hs]

/-! ## Claim C2 — scoop classification with exit 0 and no marker -/

/-- C2: for scoop, with exit code 0 and no not-found marker in the output,
the classifier answers `ok` iff some stripped non-blank output line starts
with the query identifier followed by a space or `(`, or equals it
(case-insensitively); and when no such line exists the status is exactly
`not-found`. -/
theorem interpret_scoop_ok_iff_match (identifier output : String)
    (hm : ∀ m ∈ SCOOP_NOT_FOUND_MARKERS, strContains (pyLower output) m = false) :
    ((interpret_manager_result "scoop" identifier 0 output).1 = "ok" ↔
      (scoopLines output).any (fun line => scoopLineOk identifier line) = true) ∧
    ((scoopLines output).any (fun line => scoopLineOk identifier line) = false →
      (interpret_manager_result "scoop" identifier 0 output).1 = "not-found") := by
  have hany : (SCOOP_NOT_FOUND_MARKERS.any fun m =>
      strContains (pyLower output) m) = false := by
    rw [List.any_eq_false]
    intro m hmem
    simp [hm m hmem]
  unfold interpret_manager_result
  rw [show pyLower "scoop" = "scoop" from rfl]
  rw [if_neg (by decide : ¬ ("scoop" : String) = "winget"),
    if_neg (by decide :
      ¬ (("scoop" : String) = "choco" ∨ ("scoop" : String) = "chocolatey")),
    if_pos (rfl : ("scoop" : String) = "scoop"), hany]
  rw [if_neg (by decide : ¬ (false = true)), if_neg (by decide : ¬ ((0 : Int) ≠ 0))]
  by_cases hempty : (scoopLines output).isEmpty
  · have h0 : scoopLines output = [] := List.isEmpty_iff.mp hempty
    constructor
    · simp [hempty, h0]
    · intro _
      simp [hempty]
  · by_cases hmatch : (scoopLines output).any fun line => scoopLineOk identifier line
    · constructor
      · simp [hempty, hmatch]
      · intro hfalse
        rw [hmatch] at hfalse
        cases hfalse
    · constructor
      · simp [hempty, hmatch]
      · intro _
        simp [hempty, hmatch]

/-- C2 witness at concrete satisfying instances: one matching-line `ok`
case and one no-matching-line `not-found` case. -/
theorem interpret_scoop_ok_iff_match_witness :
    (∀ m ∈ SCOOP_NOT_FOUND_MARKERS,
      strContains (pyLower "git 2.43 main") m = false) ∧
    (interpret_manager_result "scoop" "git" 0 "git 2.43 main").1 = "ok" ∧
    (interpret_manager_result "scoop" "git" 0 "gitx 2.43").1 = "not-found" := by
  refine ⟨by decide, ?_, ?_⟩
  · exact (interpret_scoop_ok_iff_match "git" "git 2.43 main" (by decide)).1.mpr
      (by decide)
  · exact (interpret_scoop_ok_iff_match "git" "gitx 2.43" (by decide)).2
      (by decide)

/-! ## Claim C3 — when a search raises a recoverable failure -/

/-- C3 counterexample: `winget search` exits 1 with output `oops`, which
contains no parseable data row and no not-found marker, yet the search
returns an empty candidate list instead of raising. -/
theorem search_nonzero_exit_unparsed_no_raise :
    (1 : Int) ≠ 0 ∧
    parse_winget_output "oops" "q" = [] ∧
    (∀ m ∈ WINGET_NOT_FOUND_MARKERS,
      strContains (pyLower "oops") m = false) ∧
    search_winget_result 1 "oops" "q" = Except.ok [] := by
  exact ⟨by decide, by rfl, by decide, by rfl⟩

/-- C3 amended: each search raises its recoverable failure exactly when the
exit code is nonzero and the output strips to the empty string (for choco
and scoop additionally only when their no-results marker is absent, since
the marker short-circuits to an empty result first); any other nonzero-exit
output is parsed normally, possibly into an empty list. -/
theorem search_raises_iff_silent_failure (code : Int) (output query : String) :
    (isSearchFailure (search_winget_result code output query) = true ↔
      code ≠ 0 ∧ pyStrip output = "") ∧
    (isSearchFailure (search_choco_result code output query) = true ↔
      strContains (pyLower output) ("no packages found") = false ∧
        code ≠ 0 ∧ pyStrip output = "") ∧
    (isSearchFailure (search_scoop_result code output query) = true ↔
      strContains (pyLower output) ("no matches found") = false ∧
        code ≠ 0 ∧ pyStrip output = "") := by
  refine ⟨?_, ?_, ?_⟩
  · unfold search_winget_result
    by_cases h : code ≠ 0 ∧ pyStrip output = ""
    · simp [h, isSearchFailure]
    · simp [h, isSearchFailure]
  · unfold search_choco_result
    by_cases hm : strContains (pyLower output) ("no packages found") = true
    · simp [hm, isSearchFailure]
    · by_cases h : code ≠ 0 ∧ pyStrip output = ""
      · simp [hm, h, isSearchFailure]
      · simp [hm, h, isSearchFailure]
  · unfold search_scoop_result
    by_cases hm : strContains (pyLower output) ("no matches found") = true
    · simp [hm, isSearchFailure]
    · by_cases h : code ≠ 0 ∧ pyStrip output = ""
      · simp [hm, h, isSearchFailure]
      · simp [hm, h, isSearchFailure]

/-! ## Claim C7 — candidate de-duplication -/

/-- Key equality for candidates is symmetric. -/
theorem dedupKey_comm (a b : SearchCandidate) :
    (dedupKey a == dedupKey b) = (dedupKey b == dedupKey a) := by
  rw [Bool.eq_iff_iff]
  simp only [beq_iff_eq]
  exact ⟨Eq.symm, Eq.symm⟩

/-- Accumulator form of the de-duplication fold. -/
theorem dedupe_foldl_eq (cs : List SearchCandidate) :
    ∀ acc : List SearchCandidate,
      cs.foldl
        (fun seen c =>
          if seen.any fun d => dedupKey d == dedupKey c then seen
          else seen ++ [c]) acc =
      acc ++ keepFirstByKey
        (cs.filter fun c => !(acc.any fun d => dedupKey d == dedupKey c)) := by
  induction cs with
  | nil => intro acc; simp [keepFirstByKey]
  | cons c cs ih =>
    intro acc
    by_cases hmem : acc.any fun d => dedupKey d == dedupKey c
    · have hdrop : (!(acc.any fun d => dedupKey d == dedupKey c)) = false := by
        simp [hmem]
      rw [List.foldl_cons, if_pos hmem, List.filter_cons, hdrop]
      simp only [Bool.false_eq_true, if_false]
      exact ih acc
    · have hkeep : (!(acc.any fun d => dedupKey d == dedupKey c)) = true := by
        simp [hmem]
      rw [List.foldl_cons, if_neg hmem, List.filter_cons, hkeep]
      simp only [if_true]
      rw [ih (acc ++ [c])]
      have hpred : ∀ x ∈ cs,
          (!((acc ++ [c]).any fun d => dedupKey d == dedupKey x)) =
            ((!(dedupKey x == dedupKey c)) &&
              (!(acc.any fun d => dedupKey d == dedupKey x))) := by
        intro x _
        rw [List.any_append]
        simp only [List.any_cons, List.any_nil, Bool.or_false, Bool.not_or]
        rw [dedupKey_comm c x, Bool.and_comm]
      rw [List.filter_congr hpred, ← List.filter_filter]
      rw [show keepFirstByKey (c :: List.filter
            (fun c_1 => !(acc.any fun d => dedupKey d == dedupKey c_1)) cs) =
          c :: keepFirstByKey ((List.filter
            (fun c_1 => !(acc.any fun d => dedupKey d == dedupKey c_1)) cs).filter
              fun d => !(dedupKey d == dedupKey c)) from by
        simp [keepFirstByKey]]
      simp

/-- C7: `dedupe_candidates` keeps exactly one candidate per
`(manager, lower-cased identifier)` key — the first occurrence in discovery
order — and keeps all candidates whose keys differ. -/
theorem dedupe_candidates_eq_keepFirstByKey (cs : List SearchCandidate) :
    dedupe_candidates cs = keepFirstByKey cs := by
  unfold dedupe_candidates
  rw [dedupe_foldl_eq cs []]
  simp

/-! ## Claim C10 — output summarizer: supporting lemmas -/

/-- Words produced by `pyWordsAux` are non-empty and whitespace-free. -/
theorem pyWordsAux_words (l : List Char) :
    ∀ acc : List Char, acc.all (fun c => !(pyIsWs c)) = true →
      ∀ w ∈ pyWordsAux l acc, w ≠ [] ∧ w.all (fun c => !(pyIsWs c)) = true := by
  induction l with
  | nil =>
    intro acc hacc w hw
    unfold pyWordsAux at hw
    by_cases he : acc.isEmpty
    · simp [he] at hw
    · simp only [he, Bool.false_eq_true, if_false, List.mem_singleton] at hw
      subst hw
      refine ⟨?_, by simpa using hacc⟩
      intro hrev
      exact he (by simpa [List.isEmpty_iff] using congrArg List.reverse hrev)
  | cons c rest ih =>
    intro acc hacc w hw
    unfold pyWordsAux at hw
    by_cases hws : pyIsWs c
    · by_cases he : acc.isEmpty
      · simp only [hws, he, if_true] at hw
        exact ih [] (by simp) w hw
      · simp only [hws, he, Bool.false_eq_true, if_true, if_false,
          List.mem_cons] at hw
        rcases hw with hw | hw
        · subst hw
          refine ⟨?_, by simpa using hacc⟩
          intro hrev
          exact he (by simpa [List.isEmpty_iff] using congrArg List.reverse hrev)
        · exact ih [] (by simp) w hw
    · simp only [hws, Bool.false_eq_true, if_false] at hw
      exact ih (c :: acc) (by simp [hws, List.all_eq_true] at hacc ⊢; exact hacc)
        w hw

/-- A whitespace-free list trivially has no whitespace runs. -/
theorem noWsRunB_of_all_nonws :
    ∀ l : List Char, l.all (fun c => !(pyIsWs c)) = true → noWsRunB l = true := by
  intro l
  induction l with
  | nil => intro; rfl
  | cons c rest ih =>
    intro h
    cases rest with
    | nil => rfl
    | cons d rest2 =>
      simp only [List.all_cons, Bool.and_eq_true] at h
      unfold noWsRunB
      rw [Bool.and_eq_true]
      refine ⟨by simp [h.1], ih (by simp [List.all_eq_true] at h ⊢; exact h.2)⟩

/-- Splicing a space between a whitespace-free word and a run-free list whose
head is not whitespace keeps the no-run property. -/
theorem noWsRunB_word_space (rest : List Char) (hr : noWsRunB rest = true)
    (hh : rest ≠ [] → pyIsWs (rest.headD 'x') = false) :
    ∀ w : List Char, w.all (fun c => !(pyIsWs c)) = true →
      noWsRunB (w ++ ' ' :: rest) = true := by
  intro w
  induction w with
  | nil =>
    intro _
    cases rest with
    | nil => rfl
    | cons d rest2 =>
      have hd : pyIsWs d = false := by simpa using hh (by simp)
      simp only [List.nil_append, noWsRunB]
      rw [Bool.and_eq_true]
      exact ⟨by simp [hd], hr⟩
  | cons c w' ih =>
    intro hall
    simp only [List.all_cons, Bool.and_eq_true] at hall
    have hc : pyIsWs c = false := by simpa using hall.1
    have htail := ih hall.2
    cases w' with
    | nil =>
      simp only [List.nil_append] at htail
      simp only [List.cons_append, List.nil_append, noWsRunB]
      rw [Bool.and_eq_true]
      exact ⟨by simp [hc], htail⟩
    | cons d w'' =>
      simp only [List.cons_append] at htail ⊢
      simp only [noWsRunB]
      rw [Bool.and_eq_true]
      exact ⟨by simp [hc], htail⟩

/-- `joinSpace` of non-empty whitespace-free words: every whitespace
character is a single space, no whitespace runs, and the head (when present)
is not whitespace. -/
theorem joinSpace_ok :
    ∀ ws : List (List Char),
      (∀ w ∈ ws, w ≠ [] ∧ w.all (fun c => !(pyIsWs c)) = true) →
      spacesOnlyB (joinSpace ws) = true ∧ noWsRunB (joinSpace ws) = true ∧
        (joinSpace ws ≠ [] → pyIsWs ((joinSpace ws).headD 'x') = false) := by
  intro ws
  induction ws with
  | nil => intro _; exact ⟨rfl, rfl, by intro h; simp [joinSpace] at h⟩
  | cons w rest ih =>
    intro h
    have hw := h w (by simp)
    cases rest with
    | nil =>
      refine ⟨?_, noWsRunB_of_all_nonws w hw.2, ?_⟩
      · show (joinSpace [w]).all _ = true
        simp only [joinSpace]
        rw [List.all_eq_true] at hw ⊢
        rcases hw with ⟨-, hw2⟩
        intro c hc
        simp [hw2 c hc]
      · intro hne
        show pyIsWs ((joinSpace [w]).headD 'x') = false
        simp only [joinSpace] at hne ⊢
        cases w with
        | nil => exact absurd rfl hw.1
        | cons c w' =>
          have h2 := hw.2
          rw [List.all_cons, Bool.and_eq_true] at h2
          simpa using h2.1
    | cons w2 rest2 =>
      have ihr := ih (fun x hx => h x (by simp [hx]))
      have hjoin : joinSpace (w :: w2 :: rest2) = w ++ ' ' :: joinSpace (w2 :: rest2) := rfl
      have hjne : joinSpace (w2 :: rest2) ≠ [] := by
        have hw2 := h w2 (by simp)
        cases rest2 with
        | nil => simpa [joinSpace] using hw2.1
        | cons w3 rest3 =>
          simp only [joinSpace]
          intro hcontr
          exact hw2.1 (by simpa using (List.append_eq_nil.mp hcontr).1)
      refine ⟨?_, ?_, ?_⟩
      · rw [hjoin]
        show (_ ++ _ : List Char).all _ = true
        rw [List.all_append, Bool.and_eq_true]
        constructor
        · rw [List.all_eq_true] at hw ⊢
          rcases hw with ⟨-, hw2⟩
          intro c hc
          simp [hw2 c hc]
        · rw [List.all_cons]
          simp only [Bool.and_eq_true]
          exact ⟨by simp [pyIsWs], ihr.1⟩
      · rw [hjoin]
        exact noWsRunB_word_space _ ihr.2.1 ihr.2.2 w hw.2
      · intro _
        rw [hjoin]
        cases w with
        | nil => exact absurd rfl hw.1
        | cons c w' =>
          have h2 := hw.2
          rw [List.all_cons, Bool.and_eq_true] at h2
          simpa using h2.1

/-- The whitespace-collapsed output has single-space whitespace and no
whitespace runs. -/
theorem pyCollapse_ok (s : String) :
    spacesOnlyB (pyCollapse s).data = true ∧
      noWsRunB (pyCollapse s).data = true := by
  have h := joinSpace_ok (pyWords s.data)
    (pyWordsAux_words s.data [] (by simp))
  exact ⟨h.1, h.2.1⟩

/-- Taking a prefix preserves the no-whitespace-run property. -/
theorem noWsRunB_take :
    ∀ l : List Char, ∀ n : Nat, noWsRunB l = true → noWsRunB (l.take n) = true := by
  intro l
  induction l with
  | nil => intro n _; simp [noWsRunB]
  | cons c l ih =>
    intro n h
    cases n with
    | zero => rfl
    | succ n =>
      cases l with
      | nil => simp [noWsRunB]
      | cons d l' =>
        unfold noWsRunB at h
        rw [Bool.and_eq_true] at h
        cases n with
        | zero => rfl
        | succ n' =>
          show noWsRunB (c :: d :: l'.take n') = true
          unfold noWsRunB
          rw [Bool.and_eq_true]
          exact ⟨h.1, ih (n' + 1) h.2⟩

/-- Taking a prefix preserves `spacesOnlyB`. -/
theorem spacesOnlyB_take (l : List Char) (n : Nat)
    (h : spacesOnlyB l = true) : spacesOnlyB (l.take n) = true := by
  rw [spacesOnlyB, List.all_eq_true] at h ⊢
  exact fun c hc => h c (List.mem_of_mem_take hc)

/-- `dropWhile` drops exactly the `takeWhile` prefix. -/
theorem dropWhile_eq_drop_len (p : Char → Bool) :
    ∀ l : List Char, l.dropWhile p = l.drop ((l.takeWhile p).length) := by
  intro l
  induction l with
  | nil => rfl
  | cons c l ih =>
    by_cases h : p c
    · simp [List.dropWhile_cons, List.takeWhile_cons, h, ih]
    · simp [List.dropWhile_cons, List.takeWhile_cons, h]

/-- Right strip is a `take` of the original list. -/
theorem pyRstripL_eq_take (l : List Char) :
    pyRstripL l = l.take (l.length - (l.reverse.takeWhile pyIsWs).length) := by
  have hm : (l.reverse.takeWhile pyIsWs).length ≤ l.length := by
    calc (l.reverse.takeWhile pyIsWs).length ≤ l.reverse.length :=
          (List.takeWhile_sublist _).length_le
    _ = l.length := List.length_reverse l
  have h1 : pyRstripL l =
      (l.reverse.drop ((l.reverse.takeWhile pyIsWs).length)).reverse := by
    rw [pyRstripL, dropWhile_eq_drop_len]
  rw [h1]
  have h2 : (l.take (l.length - (l.reverse.takeWhile pyIsWs).length)).reverse =
      l.reverse.drop ((l.reverse.takeWhile pyIsWs).length) := by
    rw [List.reverse_take]
    congr 1
    omega
  rw [← h2, List.reverse_reverse]

/-- Appending the ellipsis preserves the no-whitespace-run property. -/
theorem noWsRunB_append_dots :
    ∀ l : List Char, noWsRunB l = true →
      noWsRunB (l ++ ['.', '.', '.']) = true := by
  intro l
  induction l with
  | nil => intro _; rfl
  | cons c l ih =>
    intro h
    cases l with
    | nil => simp [noWsRunB, pyIsWs]
    | cons d l' =>
      unfold noWsRunB at h
      rw [Bool.and_eq_true] at h
      simp only [List.cons_append] at ih ⊢
      unfold noWsRunB
      rw [Bool.and_eq_true]
      exact ⟨h.1, by simpa using ih h.2⟩

/-- Appending the ellipsis preserves `spacesOnlyB`. -/
theorem spacesOnlyB_append_dots (l : List Char) (h : spacesOnlyB l = true) :
    spacesOnlyB (l ++ ['.', '.', '.']) = true := by
  rw [spacesOnlyB] at h
  rw [spacesOnlyB, List.all_append, Bool.and_eq_true]
  exact ⟨h, by decide⟩

/-! ## Claim C10 — the summarizer theorems -/

/-- C10 counterexample: for input `"ab..."` and limit 2 the collapsed form
has length 5 > 2, yet the truncated result coincides with the collapsed
input — refuting the claimed "equals the collapsed input exactly when its
length is at most L". -/
theorem summarize_output_truncation_collision :
    summarize_output "ab..." 2 = pyCollapse "ab..." ∧
      2 < (pyCollapse "ab...").length := by
  exact ⟨rfl, by decide⟩

/-- C10 amended: the summary has single-space whitespace only (hence no
newlines) and no whitespace runs; when the collapsed input fits in `limit`
the summary is exactly the collapsed input, otherwise it is the collapsed
input cut to `limit` characters, right-stripped, with `"..."` appended
(which can coincide with the collapsed input); the length never exceeds
`limit + 3`. -/
theorem summarize_output_spec (output : String) (limit : Nat)
    (_hpos : 0 < limit) :
    spacesOnlyB (summarize_output output limit).data = true ∧
    noWsRunB (summarize_output output limit).data = true ∧
    ((pyCollapse output).length ≤ limit →
      summarize_output output limit = pyCollapse output) ∧
    (limit < (pyCollapse output).length →
      summarize_output output limit =
        String.mk (pyRstripL ((pyCollapse output).data.take limit)) ++ "...") ∧
    (summarize_output output limit).length ≤ limit + 3 := by
  have hc := pyCollapse_ok output
  by_cases h0 : output = ""
  · subst h0
    have he : summarize_output "" limit = "" := by
      unfold summarize_output
      rw [if_pos rfl]
    rw [he]
    have hcl : pyCollapse "" = "" := rfl
    refine ⟨rfl, rfl, fun _ => hcl.symm, ?_, by simp [String.length]⟩
    intro hlt
    rw [hcl] at hlt
    rw [show ("" : String).length = 0 from rfl] at hlt
    exact absurd hlt (by omega)
  · have he : summarize_output output limit =
        (if (pyCollapse output).length ≤ limit then pyCollapse output
         else String.mk (pyRstripL ((pyCollapse output).data.take limit)) ++ "...") := by
      unfold summarize_output
      rw [if_neg h0]
    by_cases hlen : (pyCollapse output).length ≤ limit
    · rw [he, if_pos hlen]
      exact ⟨hc.1, hc.2, fun _ => rfl, fun h => absurd h (by omega),
        le_trans hlen (by omega)⟩
    · rw [he, if_neg hlen]
      have htake := noWsRunB_take (pyCollapse output).data limit hc.2
      have htake2 := spacesOnlyB_take (pyCollapse output).data limit hc.1
      have hr : pyRstripL ((pyCollapse output).data.take limit) =
          ((pyCollapse output).data.take limit).take
            (((pyCollapse output).data.take limit).length -
              ((((pyCollapse output).data.take limit)).reverse.takeWhile pyIsWs).length) :=
        pyRstripL_eq_take _
      have hrun : noWsRunB (pyRstripL ((pyCollapse output).data.take limit)) = true := by
        rw [hr]; exact noWsRunB_take _ _ htake
      have hsp : spacesOnlyB (pyRstripL ((pyCollapse output).data.take limit)) = true := by
        rw [hr]; exact spacesOnlyB_take _ _ htake2
      have hdata : (String.mk (pyRstripL ((pyCollapse output).data.take limit)) ++
          ("..." : String)).data =
          pyRstripL ((pyCollapse output).data.take limit) ++ ['.', '.', '.'] := rfl
      have hlenr : (pyRstripL ((pyCollapse output).data.take limit)).length ≤ limit := by
        rw [hr]
        calc (((pyCollapse output).data.take limit).take _).length ≤
              ((pyCollapse output).data.take limit).length :=
              (List.take_sublist _ _).length_le
        _ ≤ limit := List.length_take_le _ _
      refine ⟨?_, ?_, fun h => absurd h hlen, fun _ => rfl, ?_⟩
      · rw [hdata]
        exact spacesOnlyB_append_dots _ hsp
      · rw [hdata]
        exact noWsRunB_append_dots _ hrun
      · have hlen3 : (String.mk (pyRstripL ((pyCollapse output).data.take limit)) ++
            ("..." : String)).length =
            (pyRstripL ((pyCollapse output).data.take limit)).length + 3 := by
          rw [String.length, hdata, List.length_append]
          rfl
        omega

/-- C10 witness at a concrete satisfying instance. -/
theorem summarize_output_spec_witness :
    (0 : Nat) < 5 ∧ spacesOnlyB (summarize_output "x  y\nlong tail here" 5).data = true ∧
      noWsRunB (summarize_output "x  y\nlong tail here" 5).data = true ∧
      (summarize_output "x  y\nlong tail here" 5).length ≤ 5 + 3 := by
  have h := summarize_output_spec "x  y\nlong tail here" 5 (by decide)
  exact ⟨by decide, h.1, h.2.1, h.2.2.2.2⟩

/-! ## SequenceMatcher lemmas (for C1, C5, C6, C9) -/

/-- A matching run is no longer than the left suffix. -/
theorem runLen_le_left (bj : Char → Bool) :
    ∀ xs ys : List Char, runLen bj xs ys ≤ xs.length := by
  intro xs
  induction xs with
  | nil => intro ys; cases ys <;> simp [runLen]
  | cons x xs ih =>
    intro ys
    cases ys with
    | nil => simp [runLen]
    | cons y ys =>
      unfold runLen
      by_cases h : x = y ∧ bj y = false
      · rw [if_pos h]
        simpa using ih ys
      · rw [if_neg h]
        simp

/-- A matching run is no longer than the right suffix. -/
theorem runLen_le_right (bj : Char → Bool) :
    ∀ xs ys : List Char, runLen bj xs ys ≤ ys.length := by
  intro xs
  induction xs with
  | nil => intro ys; cases ys <;> simp [runLen]
  | cons x xs ih =>
    intro ys
    cases ys with
    | nil => simp [runLen]
    | cons y ys =>
      unfold runLen
      by_cases h : x = y ∧ bj y = false
      · rw [if_pos h]
        simpa using ih ys
      · rw [if_neg h]
        simp

/-- A matching run of `xs` against `ys` is dominated by the reflexive run of
`xs` (matched characters are equal, so junk-freeness transfers). -/
theorem runLen_le_diag_left (bj : Char → Bool) :
    ∀ xs ys : List Char, runLen bj xs ys ≤ runLen bj xs xs := by
  intro xs
  induction xs with
  | nil => intro ys; cases ys <;> simp [runLen]
  | cons x xs ih =>
    intro ys
    cases ys with
    | nil => simp [runLen]
    | cons y ys =>
      by_cases h : x = y ∧ bj y = false
      · have hx : x = x ∧ bj x = false := ⟨rfl, h.1 ▸ h.2⟩
        rw [runLen, if_pos h, runLen, if_pos hx]
        exact Nat.succ_le_succ (ih ys)
      · rw [runLen, if_neg h]
        exact Nat.zero_le _

/-- A matching run of `xs` against `ys` is dominated by the reflexive run of
`ys`. -/
theorem runLen_le_diag_right (bj : Char → Bool) :
    ∀ xs ys : List Char, runLen bj xs ys ≤ runLen bj ys ys := by
  intro xs
  induction xs with
  | nil => intro ys; cases ys <;> simp [runLen]
  | cons x xs ih =>
    intro ys
    cases ys with
    | nil => simp [runLen]
    | cons y ys =>
      by_cases h : x = y ∧ bj y = false
      · have hy : y = y ∧ bj y = false := ⟨rfl, h.2⟩
        rw [runLen, if_pos h, runLen, if_pos hy]
        exact Nat.succ_le_succ (ih ys)
      · rw [runLen, if_neg h]
        exact Nat.zero_le _

/-- Window bound on the `a` side. -/
theorem jfRun_le_sub_a (a b : List Char) (bj : Char → Bool)
    (ahi bhi i j : Nat) : jfRun a b bj ahi bhi i j ≤ ahi - i := by
  calc jfRun a b bj ahi bhi i j ≤ ((a.take ahi).drop i).length :=
        runLen_le_left bj _ _
  _ ≤ ahi - i := by
      rw [List.length_drop, List.length_take]
      omega

/-- Window bound on the `b` side. -/
theorem jfRun_le_sub_b (a b : List Char) (bj : Char → Bool)
    (ahi bhi i j : Nat) : jfRun a b bj ahi bhi i j ≤ bhi - j := by
  calc jfRun a b bj ahi bhi i j ≤ ((b.take bhi).drop j).length :=
        runLen_le_right bj _ _
  _ ≤ bhi - j := by
      rw [List.length_drop, List.length_take]
      omega

/-- A fold preserves any invariant its step preserves. -/
theorem foldlPreserves {α β : Type} (f : β → α → β) (P : β → Prop) :
    ∀ (l : List α) (init : β), P init →
      (∀ s x, x ∈ l → P s → P (f s x)) → P (l.foldl f init) := by
  intro l
  induction l with
  | nil => intro init h _; exact h
  | cons x l ih =>
    intro init h hstep
    exact ih (f init x) (hstep init x (by simp) h)
      fun s y hy hs => hstep s y (by simp [hy]) hs

/-- Membership in the scanned pair list gives window bounds. -/
theorem flmPairs_mem {alo ahi blo bhi : Nat} {p : Nat × Nat}
    (h : p ∈ flmPairs alo ahi blo bhi) :
    alo ≤ p.1 ∧ p.1 < ahi ∧ blo ≤ p.2 ∧ p.2 < bhi := by
  unfold flmPairs at h
  rw [List.mem_flatMap] at h
  obtain ⟨i, hi, hp⟩ := h
  rw [List.mem_map] at hp
  obtain ⟨j, hj, rfl⟩ := hp
  rw [List.mem_range'_1] at hi hj
  exact ⟨hi.1, by omega, hj.1, by omega⟩

/-- The pair `(alo, blo)` is scanned whenever the window is non-empty. -/
theorem flmPairs_mem_lo {alo ahi blo bhi : Nat} (ha : alo < ahi)
    (hb : blo < bhi) : (alo, blo) ∈ flmPairs alo ahi blo bhi := by
  unfold flmPairs
  rw [List.mem_flatMap]
  refine ⟨alo, ?_, ?_⟩
  · rw [List.mem_range'_1]; omega
  · rw [List.mem_map]
    exact ⟨blo, by rw [List.mem_range'_1]; omega, rfl⟩

/-- The window invariant carried by `find_longest_match` states. -/
def flmInv (alo ahi blo bhi : Nat) (s : Nat × Nat × Nat) : Prop :=
  alo ≤ s.1 ∧ s.1 + s.2.2 ≤ ahi ∧ blo ≤ s.2.1 ∧ s.2.1 + s.2.2 ≤ bhi

/-- The scan yields an in-window block. -/
theorem bestJfMatch_inv (a b : List Char) (bj : Char → Bool)
    (alo ahi blo bhi : Nat) (ha : alo ≤ ahi) (hb : blo ≤ bhi) :
    flmInv alo ahi blo bhi (bestJfMatch a b bj alo ahi blo bhi) := by
  unfold bestJfMatch
  refine foldlPreserves _ (flmInv alo ahi blo bhi) _ _
    ⟨le_refl _, by simpa using ha, le_refl _, by simpa using hb⟩ ?_
  intro s p hp hs
  unfold flmStep
  by_cases h : s.2.2 < jfRun a b bj ahi bhi p.1 p.2
  · rw [if_pos h]
    obtain ⟨h1, h2, h3, h4⟩ := flmPairs_mem hp
    refine ⟨h1, ?_, h3, ?_⟩
    · show p.1 + jfRun a b bj ahi bhi p.1 p.2 ≤ ahi
      have := jfRun_le_sub_a a b bj ahi bhi p.1 p.2
      omega
    · show p.2 + jfRun a b bj ahi bhi p.1 p.2 ≤ bhi
      have := jfRun_le_sub_b a b bj ahi bhi p.1 p.2
      omega
  · rw [if_neg h]
    exact hs

/-- The scanned best size dominates every scanned run (monotonicity part). -/
theorem foldl_flmStep_k_mono (a b : List Char) (bj : Char → Bool)
    (ahi bhi : Nat) :
    ∀ (l : List (Nat × Nat)) (s : Nat × Nat × Nat),
      s.2.2 ≤ (l.foldl (flmStep a b bj ahi bhi) s).2.2 := by
  intro l
  induction l with
  | nil => intro s; exact le_refl _
  | cons p l ih =>
    intro s
    rw [List.foldl_cons]
    refine le_trans ?_ (ih (flmStep a b bj ahi bhi s p))
    unfold flmStep
    by_cases h : s.2.2 < jfRun a b bj ahi bhi p.1 p.2
    · rw [if_pos h]; exact le_of_lt h
    · rw [if_neg h]

/-- The scanned best size dominates every scanned run. -/
theorem foldl_flmStep_ge_run (a b : List Char) (bj : Char → Bool)
    (ahi bhi : Nat) :
    ∀ (l : List (Nat × Nat)) (s : Nat × Nat × Nat) (p : Nat × Nat),
      p ∈ l → jfRun a b bj ahi bhi p.1 p.2 ≤
        (l.foldl (flmStep a b bj ahi bhi) s).2.2 := by
  intro l
  induction l with
  | nil => intro s p hp; simp at hp
  | cons q l ih =>
    intro s p hp
    rw [List.mem_cons] at hp
    rw [List.foldl_cons]
    rcases hp with rfl | hp
    · refine le_trans ?_ (foldl_flmStep_k_mono a b bj ahi bhi l _)
      unfold flmStep
      by_cases h : s.2.2 < jfRun a b bj ahi bhi p.1 p.2
      · rw [if_pos h]
      · rw [if_neg h]; omega
    · exact ih _ p hp

/-- If the scan never improves on size zero it returns the initial block. -/
theorem foldl_flmStep_zero (a b : List Char) (bj : Char → Bool)
    (ahi bhi alo blo : Nat) (l : List (Nat × Nat))
    (h : (l.foldl (flmStep a b bj ahi bhi) (alo, blo, 0)).2.2 = 0) :
    l.foldl (flmStep a b bj ahi bhi) (alo, blo, 0) = (alo, blo, 0) := by
  have := foldlPreserves (flmStep a b bj ahi bhi)
    (fun s => s.2.2 = 0 → s = (alo, blo, 0)) l (alo, blo, 0)
    (fun _ => rfl) ?_
  · exact this h
  · intro s p _ hs
    unfold flmStep
    by_cases hlt : s.2.2 < jfRun a b bj ahi bhi p.1 p.2
    · rw [if_pos hlt]
      intro hzero
      simp at hzero
      omega
    · rw [if_neg hlt]
      exact hs

/-- Backward non-junk extension stays inside the window. -/
theorem extNonJunkBack_inv (a b : List Char) (bj : Char → Bool)
    (alo blo ahi bhi : Nat) :
    ∀ (fuel : Nat) (s : Nat × Nat × Nat), flmInv alo ahi blo bhi s →
      flmInv alo ahi blo bhi (extNonJunkBack a b bj alo blo fuel s) := by
  intro fuel
  induction fuel with
  | zero => intro s hs; exact hs
  | succ fuel ih =>
    intro s hs
    obtain ⟨i, j, k⟩ := s
    simp only [flmInv] at hs
    unfold extNonJunkBack
    by_cases h : alo < i ∧ blo < j ∧ bj (b.getD (j - 1) ' ') = false ∧
        a.getD (i - 1) ' ' = b.getD (j - 1) ' '
    · rw [if_pos h]
      refine ih _ ?_
      obtain ⟨hh1, hh2, hh3, hh4⟩ := h
      simp only [flmInv]
      refine ⟨?_, ?_, ?_, ?_⟩ <;> omega
    · rw [if_neg h]
      simp only [flmInv]
      refine ⟨?_, ?_, ?_, ?_⟩ <;> omega

/-- Forward non-junk extension stays inside the window. -/
theorem extNonJunkFwd_inv (a b : List Char) (bj : Char → Bool)
    (alo blo ahi bhi : Nat) :
    ∀ (fuel : Nat) (s : Nat × Nat × Nat), flmInv alo ahi blo bhi s →
      flmInv alo ahi blo bhi (extNonJunkFwd a b bj ahi bhi fuel s) := by
  intro fuel
  induction fuel with
  | zero => intro s hs; exact hs
  | succ fuel ih =>
    intro s hs
    obtain ⟨i, j, k⟩ := s
    simp only [flmInv] at hs
    unfold extNonJunkFwd
    by_cases h : i + k < ahi ∧ j + k < bhi ∧ bj (b.getD (j + k) ' ') = false ∧
        a.getD (i + k) ' ' = b.getD (j + k) ' '
    · rw [if_pos h]
      refine ih _ ?_
      obtain ⟨hh1, hh2, hh3, hh4⟩ := h
      simp only [flmInv]
      refine ⟨?_, ?_, ?_, ?_⟩ <;> omega
    · rw [if_neg h]
      simp only [flmInv]
      refine ⟨?_, ?_, ?_, ?_⟩ <;> omega

/-- Backward junk extension stays inside the window. -/
theorem extJunkBack_inv (a b : List Char) (bj : Char → Bool)
    (alo blo ahi bhi : Nat) :
    ∀ (fuel : Nat) (s : Nat × Nat × Nat), flmInv alo ahi blo bhi s →
      flmInv alo ahi blo bhi (extJunkBack a b bj alo blo fuel s) := by
  intro fuel
  induction fuel with
  | zero => intro s hs; exact hs
  | succ fuel ih =>
    intro s hs
    obtain ⟨i, j, k⟩ := s
    simp only [flmInv] at hs
    unfold extJunkBack
    by_cases h : alo < i ∧ blo < j ∧ bj (b.getD (j - 1) ' ') = true ∧
        a.getD (i - 1) ' ' = b.getD (j - 1) ' '
    · rw [if_pos h]
      refine ih _ ?_
      obtain ⟨hh1, hh2, hh3, hh4⟩ := h
      simp only [flmInv]
      refine ⟨?_, ?_, ?_, ?_⟩ <;> omega
    · rw [if_neg h]
      simp only [flmInv]
      refine ⟨?_, ?_, ?_, ?_⟩ <;> omega

/-- Forward junk extension stays inside the window. -/
theorem extJunkFwd_inv (a b : List Char) (bj : Char → Bool)
    (alo blo ahi bhi : Nat) :
    ∀ (fuel : Nat) (s : Nat × Nat × Nat), flmInv alo ahi blo bhi s →
      flmInv alo ahi blo bhi (extJunkFwd a b bj ahi bhi fuel s) := by
  intro fuel
  induction fuel with
  | zero => intro s hs; exact hs
  | succ fuel ih =>
    intro s hs
    obtain ⟨i, j, k⟩ := s
    simp only [flmInv] at hs
    unfold extJunkFwd
    by_cases h : i + k < ahi ∧ j + k < bhi ∧ bj (b.getD (j + k) ' ') = true ∧
        a.getD (i + k) ' ' = b.getD (j + k) ' '
    · rw [if_pos h]
      refine ih _ ?_
      obtain ⟨hh1, hh2, hh3, hh4⟩ := h
      simp only [flmInv]
      refine ⟨?_, ?_, ?_, ?_⟩ <;> omega
    · rw [if_neg h]
      simp only [flmInv]
      refine ⟨?_, ?_, ?_, ?_⟩ <;> omega

/-- `find_longest_match` returns an in-window block. -/
theorem find_longest_match_inv (a b : List Char) (bj : Char → Bool)
    (alo ahi blo bhi : Nat) (ha : alo ≤ ahi) (hb : blo ≤ bhi) :
    flmInv alo ahi blo bhi (find_longest_match a b bj alo ahi blo bhi) := by
  unfold find_longest_match
  exact extJunkFwd_inv a b bj alo blo ahi bhi _ _
    (extJunkBack_inv a b bj alo blo ahi bhi _ _
      (extNonJunkFwd_inv a b bj alo blo ahi bhi _ _
        (extNonJunkBack_inv a b bj alo blo ahi bhi _ _
          (bestJfMatch_inv a b bj alo ahi blo bhi ha hb))))

/-- On equal sequences, a run is dominated by the diagonal run at its first
coordinate. -/
theorem jfRun_le_diag_i (a : List Char) (bj : Char → Bool) (ahi i j : Nat) :
    jfRun a a bj ahi ahi i j ≤ jfRun a a bj ahi ahi i i :=
  runLen_le_diag_left bj _ _

/-- On equal sequences, a run is dominated by the diagonal run at its second
coordinate. -/
theorem jfRun_le_diag_j (a : List Char) (bj : Char → Bool) (ahi i j : Nat) :
    jfRun a a bj ahi ahi i j ≤ jfRun a a bj ahi ahi j j :=
  runLen_le_diag_right bj _ _

/-- Inner scan row on equal sequences: scanning row `i` keeps the running
best block diagonal, because any off-diagonal improvement is dominated by an
already-scanned diagonal run. -/
theorem innerDiagFold (a : List Char) (bj : Char → Bool) (ahi alo i : Nat) :
    ∀ (m j0 : Nat) (s : Nat × Nat × Nat), alo ≤ i → alo ≤ j0 →
      s.1 = s.2.1 →
      (∀ d, alo ≤ d → d < i → jfRun a a bj ahi ahi d d ≤ s.2.2) →
      (i < j0 → jfRun a a bj ahi ahi i i ≤ s.2.2) →
      ((((List.range' j0 m).map fun j => (i, j)).foldl
          (flmStep a a bj ahi ahi) s).1 =
        (((List.range' j0 m).map fun j => (i, j)).foldl
          (flmStep a a bj ahi ahi) s).2.1 ∧
      (∀ d, alo ≤ d → d < i → jfRun a a bj ahi ahi d d ≤
        (((List.range' j0 m).map fun j => (i, j)).foldl
          (flmStep a a bj ahi ahi) s).2.2) ∧
      (i < j0 + m → jfRun a a bj ahi ahi i i ≤
        (((List.range' j0 m).map fun j => (i, j)).foldl
          (flmStep a a bj ahi ahi) s).2.2)) := by
  intro m
  induction m with
  | zero =>
    intro j0 s hi hj0 hdiag hlt hcur
    refine ⟨hdiag, hlt, ?_⟩
    intro h
    exact hcur (by omega)
  | succ m ih =>
    intro j0 s hi hj0 hdiag hlt hcur
    rw [List.range'_succ, List.map_cons, List.foldl_cons]
    by_cases hup : s.2.2 < jfRun a a bj ahi ahi i j0
    · have hij : i = j0 := by
        by_contra hne
        rcases Nat.lt_or_ge j0 i with hcase | hcase
        · have h1 := jfRun_le_diag_j a bj ahi i j0
          have h2 := hlt j0 hj0 hcase
          omega
        · have hij0 : i < j0 := by omega
          have h1 := jfRun_le_diag_i a bj ahi i j0
          have h2 := hcur hij0
          omega
      have hstep : flmStep a a bj ahi ahi s (i, j0) =
          (i, j0, jfRun a a bj ahi ahi i j0) := by
        unfold flmStep
        rw [if_pos hup]
      rw [hstep]
      have hres := ih (j0 + 1) (i, j0, jfRun a a bj ahi ahi i j0) hi
        (by omega) (by simpa using hij) ?_ ?_
      · exact ⟨hres.1, hres.2.1, fun h => hres.2.2 (by omega)⟩
      · intro d hd1 hd2
        have := hlt d hd1 hd2
        show jfRun a a bj ahi ahi d d ≤ jfRun a a bj ahi ahi i j0
        omega
      · intro _
        show jfRun a a bj ahi ahi i i ≤ jfRun a a bj ahi ahi i j0
        rw [hij]
    · have hstep : flmStep a a bj ahi ahi s (i, j0) = s := by
        unfold flmStep
        rw [if_neg hup]
      rw [hstep]
      have hres := ih (j0 + 1) s hi (by omega) hdiag hlt ?_
      · exact ⟨hres.1, hres.2.1, fun h => hres.2.2 (by omega)⟩
      · intro hij0
        rcases Nat.lt_or_ge i j0 with hcase | hcase
        · exact hcur hcase
        · have : i = j0 := by omega
          subst this
          omega

/-- Outer scan on equal sequences: the best block stays diagonal. -/
theorem outerDiagFold (a : List Char) (bj : Char → Bool) (ahi alo : Nat) :
    ∀ (m i0 : Nat) (s : Nat × Nat × Nat), alo ≤ i0 → i0 + m ≤ ahi →
      s.1 = s.2.1 →
      (∀ d, alo ≤ d → d < i0 → jfRun a a bj ahi ahi d d ≤ s.2.2) →
      ((((List.range' i0 m).flatMap fun i =>
          (List.range' alo (ahi - alo)).map fun j => (i, j)).foldl
          (flmStep a a bj ahi ahi) s).1 =
        (((List.range' i0 m).flatMap fun i =>
          (List.range' alo (ahi - alo)).map fun j => (i, j)).foldl
          (flmStep a a bj ahi ahi) s).2.1) := by
  intro m
  induction m with
  | zero => intro i0 s _ _ hdiag _; exact hdiag
  | succ m ih =>
    intro i0 s hi0 hbound hdiag hprev
    rw [List.range'_succ, List.flatMap_cons, List.foldl_append]
    have hinner := innerDiagFold a bj ahi alo i0 (ahi - alo) alo s hi0
      (le_refl alo) hdiag hprev (by omega)
    refine ih (i0 + 1) _ (by omega) (by omega) hinner.1 ?_
    intro d hd1 hd2
    rcases Nat.lt_or_ge d i0 with hcase | hcase
    · exact hinner.2.1 d hd1 hcase
    · have : d = i0 := by omega
      subst this
      exact hinner.2.2 (by omega)

/-- On equal sequences the scanned best block is diagonal. -/
theorem bestJfMatch_diag (a : List Char) (bj : Char → Bool) (alo ahi : Nat) :
    (bestJfMatch a a bj alo ahi alo ahi).1 =
      (bestJfMatch a a bj alo ahi alo ahi).2.1 := by
  unfold bestJfMatch flmPairs
  by_cases h : alo ≤ ahi
  · exact outerDiagFold a bj ahi alo (ahi - alo) alo (alo, alo, 0)
      (le_refl _) (by omega) rfl (by intro d h1 h2; omega)
  · have hz : ahi - alo = 0 := by omega
    rw [hz]
    rfl

/-- The extension loops never shrink the block size (backward non-junk). -/
theorem extNonJunkBack_k_mono (a b : List Char) (bj : Char → Bool)
    (alo blo : Nat) :
    ∀ (fuel : Nat) (s : Nat × Nat × Nat),
      s.2.2 ≤ (extNonJunkBack a b bj alo blo fuel s).2.2 := by
  intro fuel
  induction fuel with
  | zero => intro s; exact le_refl _
  | succ fuel ih =>
    intro s
    obtain ⟨i, j, k⟩ := s
    unfold extNonJunkBack
    split
    · exact le_trans (Nat.le_succ k) (ih (i - 1, j - 1, k + 1))
    · exact le_refl _

/-- The extension loops never shrink the block size (forward non-junk). -/
theorem extNonJunkFwd_k_mono (a b : List Char) (bj : Char → Bool)
    (ahi bhi : Nat) :
    ∀ (fuel : Nat) (s : Nat × Nat × Nat),
      s.2.2 ≤ (extNonJunkFwd a b bj ahi bhi fuel s).2.2 := by
  intro fuel
  induction fuel with
  | zero => intro s; exact le_refl _
  | succ fuel ih =>
    intro s
    obtain ⟨i, j, k⟩ := s
    unfold extNonJunkFwd
    split
    · exact le_trans (Nat.le_succ k) (ih (i, j, k + 1))
    · exact le_refl _

/-- The extension loops never shrink the block size (backward junk). -/
theorem extJunkBack_k_mono (a b : List Char) (bj : Char → Bool)
    (alo blo : Nat) :
    ∀ (fuel : Nat) (s : Nat × Nat × Nat),
      s.2.2 ≤ (extJunkBack a b bj alo blo fuel s).2.2 := by
  intro fuel
  induction fuel with
  | zero => intro s; exact le_refl _
  | succ fuel ih =>
    intro s
    obtain ⟨i, j, k⟩ := s
    unfold extJunkBack
    split
    · exact le_trans (Nat.le_succ k) (ih (i - 1, j - 1, k + 1))
    · exact le_refl _

/-- The extension loops never shrink the block size (forward junk). -/
theorem extJunkFwd_k_mono (a b : List Char) (bj : Char → Bool)
    (ahi bhi : Nat) :
    ∀ (fuel : Nat) (s : Nat × Nat × Nat),
      s.2.2 ≤ (extJunkFwd a b bj ahi bhi fuel s).2.2 := by
  intro fuel
  induction fuel with
  | zero => intro s; exact le_refl _
  | succ fuel ih =>
    intro s
    obtain ⟨i, j, k⟩ := s
    unfold extJunkFwd
    split
    · exact le_trans (Nat.le_succ k) (ih (i, j, k + 1))
    · exact le_refl _

/-- Backward non-junk extension keeps diagonal states diagonal. -/
theorem extNonJunkBack_diag (a : List Char) (bj : Char → Bool) (alo : Nat) :
    ∀ (fuel : Nat) (s : Nat × Nat × Nat), s.1 = s.2.1 →
      (extNonJunkBack a a bj alo alo fuel s).1 =
        (extNonJunkBack a a bj alo alo fuel s).2.1 := by
  intro fuel
  induction fuel with
  | zero => intro s h; exact h
  | succ fuel ih =>
    intro s h
    obtain ⟨i, j, k⟩ := s
    have hij : i = j := h
    subst hij
    unfold extNonJunkBack
    split
    · exact ih (i - 1, i - 1, k + 1) rfl
    · rfl

/-- Forward non-junk extension keeps diagonal states diagonal. -/
theorem extNonJunkFwd_diag (a : List Char) (bj : Char → Bool) (ahi : Nat) :
    ∀ (fuel : Nat) (s : Nat × Nat × Nat), s.1 = s.2.1 →
      (extNonJunkFwd a a bj ahi ahi fuel s).1 =
        (extNonJunkFwd a a bj ahi ahi fuel s).2.1 := by
  intro fuel
  induction fuel with
  | zero => intro s h; exact h
  | succ fuel ih =>
    intro s h
    obtain ⟨i, j, k⟩ := s
    have hij : i = j := h
    subst hij
    unfold extNonJunkFwd
    split
    · exact ih (i, i, k + 1) rfl
    · rfl

/-- Backward junk extension keeps diagonal states diagonal. -/
theorem extJunkBack_diag (a : List Char) (bj : Char → Bool) (alo : Nat) :
    ∀ (fuel : Nat) (s : Nat × Nat × Nat), s.1 = s.2.1 →
      (extJunkBack a a bj alo alo fuel s).1 =
        (extJunkBack a a bj alo alo fuel s).2.1 := by
  intro fuel
  induction fuel with
  | zero => intro s h; exact h
  | succ fuel ih =>
    intro s h
    obtain ⟨i, j, k⟩ := s
    have hij : i = j := h
    subst hij
    unfold extJunkBack
    split
    · exact ih (i - 1, i - 1, k + 1) rfl
    · rfl

/-- Forward junk extension keeps diagonal states diagonal. -/
theorem extJunkFwd_diag (a : List Char) (bj : Char → Bool) (ahi : Nat) :
    ∀ (fuel : Nat) (s : Nat × Nat × Nat), s.1 = s.2.1 →
      (extJunkFwd a a bj ahi ahi fuel s).1 =
        (extJunkFwd a a bj ahi ahi fuel s).2.1 := by
  intro fuel
  induction fuel with
  | zero => intro s h; exact h
  | succ fuel ih =>
    intro s h
    obtain ⟨i, j, k⟩ := s
    have hij : i = j := h
    subst hij
    unfold extJunkFwd
    split
    · exact ih (i, i, k + 1) rfl
    · rfl

/-- On equal sequences `find_longest_match` returns a diagonal block. -/
theorem find_longest_match_diag (a : List Char) (bj : Char → Bool)
    (alo ahi : Nat) :
    (find_longest_match a a bj alo ahi alo ahi).1 =
      (find_longest_match a a bj alo ahi alo ahi).2.1 := by
  unfold find_longest_match
  exact extJunkFwd_diag a bj ahi _ _
    (extJunkBack_diag a bj alo _ _
      (extNonJunkFwd_diag a bj ahi _ _
        (extNonJunkBack_diag a bj alo _ _ (bestJfMatch_diag a bj alo ahi))))

/-- A failing guard makes the backward non-junk loop a no-op. -/
theorem extNonJunkBack_stuck (a b : List Char) (bj : Char → Bool)
    (alo blo : Nat) (fuel : Nat) (s : Nat × Nat × Nat)
    (h : ¬(alo < s.1 ∧ blo < s.2.1 ∧ bj (b.getD (s.2.1 - 1) ' ') = false ∧
      a.getD (s.1 - 1) ' ' = b.getD (s.2.1 - 1) ' ')) :
    extNonJunkBack a b bj alo blo fuel s = s := by
  obtain ⟨i, j, k⟩ := s
  cases fuel with
  | zero => rfl
  | succ fuel =>
    unfold extNonJunkBack
    rw [if_neg h]

/-- A failing guard makes the forward non-junk loop a no-op. -/
theorem extNonJunkFwd_stuck (a b : List Char) (bj : Char → Bool)
    (ahi bhi : Nat) (fuel : Nat) (s : Nat × Nat × Nat)
    (h : ¬(s.1 + s.2.2 < ahi ∧ s.2.1 + s.2.2 < bhi ∧
      bj (b.getD (s.2.1 + s.2.2) ' ') = false ∧
      a.getD (s.1 + s.2.2) ' ' = b.getD (s.2.1 + s.2.2) ' ')) :
    extNonJunkFwd a b bj ahi bhi fuel s = s := by
  obtain ⟨i, j, k⟩ := s
  cases fuel with
  | zero => rfl
  | succ fuel =>
    unfold extNonJunkFwd
    rw [if_neg h]

/-- A failing guard makes the backward junk loop a no-op. -/
theorem extJunkBack_stuck (a b : List Char) (bj : Char → Bool)
    (alo blo : Nat) (fuel : Nat) (s : Nat × Nat × Nat)
    (h : ¬(alo < s.1 ∧ blo < s.2.1 ∧ bj (b.getD (s.2.1 - 1) ' ') = true ∧
      a.getD (s.1 - 1) ' ' = b.getD (s.2.1 - 1) ' ')) :
    extJunkBack a b bj alo blo fuel s = s := by
  obtain ⟨i, j, k⟩ := s
  cases fuel with
  | zero => rfl
  | succ fuel =>
    unfold extJunkBack
    rw [if_neg h]

/-- With fuel left and the guard holding, the forward junk loop yields a
positive block size. -/
theorem extJunkFwd_pos (a b : List Char) (bj : Char → Bool) (ahi bhi : Nat)
    (fuel : Nat) (i j k : Nat) (hfuel : fuel ≠ 0)
    (h : i + k < ahi ∧ j + k < bhi ∧ bj (b.getD (j + k) ' ') = true ∧
      a.getD (i + k) ' ' = b.getD (j + k) ' ') :
    0 < (extJunkFwd a b bj ahi bhi fuel (i, j, k)).2.2 := by
  obtain ⟨f, rfl⟩ : ∃ f, fuel = f + 1 := ⟨fuel - 1, by omega⟩
  unfold extJunkFwd
  rw [if_pos h]
  have := extJunkFwd_k_mono a b bj ahi bhi f (i, j, k + 1)
  have hk : (i, j, k + 1).2.2 = k + 1 := rfl
  omega

/-- The extension never shrinks the scanned best size. -/
theorem find_longest_match_k_mono (a b : List Char) (bj : Char → Bool)
    (alo ahi blo bhi : Nat) :
    (bestJfMatch a b bj alo ahi blo bhi).2.2 ≤
      (find_longest_match a b bj alo ahi blo bhi).2.2 := by
  simp only [find_longest_match]
  exact le_trans (extNonJunkBack_k_mono a b bj alo blo _ _)
    (le_trans (extNonJunkFwd_k_mono a b bj ahi bhi _ _)
      (le_trans (extJunkBack_k_mono a b bj alo blo _ _)
        (extJunkFwd_k_mono a b bj ahi bhi _ _)))

/-- On a non-empty diagonal window, `find_longest_match` finds a non-empty
block (when nothing else matches, the junk extension grows from the junk
character at the window start). -/
theorem find_longest_match_diag_pos (a : List Char) (bj : Char → Bool)
    (alo ahi : Nat) (h1 : alo < ahi) (h2 : ahi ≤ a.length) :
    0 < (find_longest_match a a bj alo ahi alo ahi).2.2 := by
  by_cases hk : 0 < (bestJfMatch a a bj alo ahi alo ahi).2.2
  · exact lt_of_lt_of_le hk (find_longest_match_k_mono a a bj alo ahi alo ahi)
  · have hzero : (bestJfMatch a a bj alo ahi alo ahi).2.2 = 0 := by omega
    have hinit : bestJfMatch a a bj alo ahi alo ahi = (alo, alo, 0) := by
      unfold bestJfMatch at hzero ⊢
      exact foldl_flmStep_zero a a bj ahi ahi alo alo _ hzero
    have hrunle : jfRun a a bj ahi ahi alo alo ≤
        (bestJfMatch a a bj alo ahi alo ahi).2.2 := by
      unfold bestJfMatch
      exact foldl_flmStep_ge_run a a bj ahi ahi _ _ (alo, alo)
        (flmPairs_mem_lo h1 h1)
    have hrun0 : jfRun a a bj ahi ahi alo alo = 0 := by omega
    have hlt : alo < (a.take ahi).length := by
      rw [List.length_take]
      omega
    have hdrop : (a.take ahi).drop alo =
        a.getD alo ' ' :: (a.take ahi).drop (alo + 1) := by
      rw [List.drop_eq_getElem_cons hlt]
      congr 1
      rw [List.getElem_take]
      exact (List.getD_eq_getElem a ' ' (by omega)).symm
    have hjunk : bj (a.getD alo ' ') = true := by
      unfold jfRun at hrun0
      rw [hdrop] at hrun0
      unfold runLen at hrun0
      by_cases hcond : a.getD alo ' ' = a.getD alo ' ' ∧ bj (a.getD alo ' ') = false
      · rw [if_pos hcond] at hrun0
        omega
      · rcases Bool.eq_false_or_eq_true (bj (a.getD alo ' ')) with hb | hb
        · exact hb
        · exact absurd ⟨rfl, hb⟩ hcond
    simp only [find_longest_match, hinit]
    rw [extNonJunkBack_stuck a a bj alo alo alo (alo, alo, 0)
      (fun hc => absurd hc.1 (lt_irrefl alo))]
    rw [extNonJunkFwd_stuck a a bj ahi ahi ahi (alo, alo, 0)
      (fun hc => by
        have hx := hc.2.2.1
        simp only [Nat.add_zero] at hx
        rw [hjunk] at hx
        exact absurd hx (by decide))]
    rw [extJunkBack_stuck a a bj alo alo alo (alo, alo, 0)
      (fun hc => absurd hc.1 (lt_irrefl alo))]
    exact extJunkFwd_pos a a bj ahi ahi ahi alo alo 0 (by omega)
      ⟨by omega, by omega, by simpa using hjunk, rfl⟩

/-- Matched total is bounded by the `a`-window size. -/
theorem mTotalF_le_a (a b : List Char) (bj : Char → Bool) :
    ∀ (fuel alo ahi blo bhi : Nat), alo ≤ ahi → blo ≤ bhi →
      mTotalF a b bj fuel alo ahi blo bhi ≤ ahi - alo := by
  intro fuel
  induction fuel with
  | zero => intro alo ahi blo bhi _ _; simp [mTotalF]
  | succ fuel ih =>
    intro alo ahi blo bhi ha hb
    have hinv := find_longest_match_inv a b bj alo ahi blo bhi ha hb
    obtain ⟨h1, h2, h3, h4⟩ := hinv
    show (let m := find_longest_match a b bj alo ahi blo bhi
      if m.2.2 = 0 then 0
      else mTotalF a b bj fuel alo m.1 blo m.2.1 + m.2.2 +
        mTotalF a b bj fuel (m.1 + m.2.2) ahi (m.2.1 + m.2.2) bhi) ≤ ahi - alo
    by_cases hz : (find_longest_match a b bj alo ahi blo bhi).2.2 = 0
    · simp only [hz, if_true, if_pos]
      omega
    · simp only [hz, if_false, if_neg, not_false_iff]
      have hl := ih alo (find_longest_match a b bj alo ahi blo bhi).1 blo
        (find_longest_match a b bj alo ahi blo bhi).2.1 h1 h3
      have hr := ih ((find_longest_match a b bj alo ahi blo bhi).1 +
          (find_longest_match a b bj alo ahi blo bhi).2.2) ahi
        ((find_longest_match a b bj alo ahi blo bhi).2.1 +
          (find_longest_match a b bj alo ahi blo bhi).2.2) bhi h2 h4
      omega

/-- Matched total is bounded by the `b`-window size. -/
theorem mTotalF_le_b (a b : List Char) (bj : Char → Bool) :
    ∀ (fuel alo ahi blo bhi : Nat), alo ≤ ahi → blo ≤ bhi →
      mTotalF a b bj fuel alo ahi blo bhi ≤ bhi - blo := by
  intro fuel
  induction fuel with
  | zero => intro alo ahi blo bhi _ _; simp [mTotalF]
  | succ fuel ih =>
    intro alo ahi blo bhi ha hb
    have hinv := find_longest_match_inv a b bj alo ahi blo bhi ha hb
    obtain ⟨h1, h2, h3, h4⟩ := hinv
    show (let m := find_longest_match a b bj alo ahi blo bhi
      if m.2.2 = 0 then 0
      else mTotalF a b bj fuel alo m.1 blo m.2.1 + m.2.2 +
        mTotalF a b bj fuel (m.1 + m.2.2) ahi (m.2.1 + m.2.2) bhi) ≤ bhi - blo
    by_cases hz : (find_longest_match a b bj alo ahi blo bhi).2.2 = 0
    · simp only [hz, if_true, if_pos]
      omega
    · simp only [hz, if_false, if_neg, not_false_iff]
      have hl := ih alo (find_longest_match a b bj alo ahi blo bhi).1 blo
        (find_longest_match a b bj alo ahi blo bhi).2.1 h1 h3
      have hr := ih ((find_longest_match a b bj alo ahi blo bhi).1 +
          (find_longest_match a b bj alo ahi blo bhi).2.2) ahi
        ((find_longest_match a b bj alo ahi blo bhi).2.1 +
          (find_longest_match a b bj alo ahi blo bhi).2.2) bhi h2 h4
      omega

/-- On equal sequences, with sufficient fuel, the matched total is the whole
window: every diagonal window splits into a non-empty diagonal block and two
smaller diagonal windows. -/
theorem mTotalF_diag (a : List Char) (bj : Char → Bool) :
    ∀ (n fuel alo ahi : Nat), alo ≤ ahi → ahi ≤ a.length → ahi - alo = n →
      2 * n + 1 ≤ fuel → mTotalF a a bj fuel alo ahi alo ahi = n := by
  intro n
  induction n using Nat.strong_induction_on with
  | _ n ih =>
    intro fuel alo ahi h1 h2 h3 h4
    obtain ⟨f, rfl⟩ : ∃ f, fuel = f + 1 := ⟨fuel - 1, by omega⟩
    have hinv := find_longest_match_inv a a bj alo ahi alo ahi h1 h1
    obtain ⟨hi1, hi2, hi3, hi4⟩ := hinv
    show (let m := find_longest_match a a bj alo ahi alo ahi
      if m.2.2 = 0 then 0
      else mTotalF a a bj f alo m.1 alo m.2.1 + m.2.2 +
        mTotalF a a bj f (m.1 + m.2.2) ahi (m.2.1 + m.2.2) ahi) = n
    by_cases hn : n = 0
    · subst hn
      have hz : (find_longest_match a a bj alo ahi alo ahi).2.2 = 0 := by omega
      simp only [hz, if_true, if_pos]
    · have hpos : 0 < (find_longest_match a a bj alo ahi alo ahi).2.2 :=
        find_longest_match_diag_pos a bj alo ahi (by omega) h2
      have hz : ¬((find_longest_match a a bj alo ahi alo ahi).2.2 = 0) := by
        omega
      simp only [hz, if_false, if_neg, not_false_iff]
      have hdiag := find_longest_match_diag a bj alo ahi
      rw [← hdiag]
      have hleft : mTotalF a a bj f alo
          (find_longest_match a a bj alo ahi alo ahi).1 alo
          (find_longest_match a a bj alo ahi alo ahi).1 =
          (find_longest_match a a bj alo ahi alo ahi).1 - alo := by
        refine ih ((find_longest_match a a bj alo ahi alo ahi).1 - alo)
          (by omega) f alo _ hi1 (by omega) rfl (by omega)
      have hright : mTotalF a a bj f
          ((find_longest_match a a bj alo ahi alo ahi).1 +
            (find_longest_match a a bj alo ahi alo ahi).2.2) ahi
          ((find_longest_match a a bj alo ahi alo ahi).1 +
            (find_longest_match a a bj alo ahi alo ahi).2.2) ahi =
          ahi - ((find_longest_match a a bj alo ahi alo ahi).1 +
            (find_longest_match a a bj alo ahi alo ahi).2.2) := by
        exact ih (ahi - ((find_longest_match a a bj alo ahi alo ahi).1 +
            (find_longest_match a a bj alo ahi alo ahi).2.2))
          (by omega) f _ ahi hi2 h2 rfl (by omega)
      rw [hleft, hright]
      omega

/-- A failing guard makes the forward junk loop a no-op. -/
theorem extJunkFwd_stuck (a b : List Char) (bj : Char → Bool)
    (ahi bhi : Nat) (fuel : Nat) (s : Nat × Nat × Nat)
    (h : ¬(s.1 + s.2.2 < ahi ∧ s.2.1 + s.2.2 < bhi ∧
      bj (b.getD (s.2.1 + s.2.2) ' ') = true ∧
      a.getD (s.1 + s.2.2) ' ' = b.getD (s.2.1 + s.2.2) ' ')) :
    extJunkFwd a b bj ahi bhi fuel s = s := by
  obtain ⟨i, j, k⟩ := s
  cases fuel with
  | zero => rfl
  | succ fuel =>
    unfold extJunkFwd
    rw [if_neg h]

/-- `M` for the whole pair of sequences. -/
theorem mTotal_self (a : List Char) : mTotal a a = a.length := by
  unfold mTotal
  exact mTotalF_diag a (pyIsJunk a) a.length (a.length + a.length + 1)
    0 a.length (by omega) (le_refl _) (by omega) (by omega)

/-- `ratio()` of a sequence with itself is 1. -/
theorem pyRatio_self (a : List Char) (h : a ≠ []) : pyRatio a a = 1 := by
  unfold pyRatio
  have hlen : a.length ≠ 0 := by
    simpa [List.length_eq_zero] using h
  rw [if_neg (by omega), mTotal_self]
  have hq : (a.length : ℚ) ≠ 0 := by exact_mod_cast hlen
  field_simp
  ring

/-- `ratio()` is non-negative. -/
theorem pyRatio_nonneg (a b : List Char) : 0 ≤ pyRatio a b := by
  unfold pyRatio
  by_cases h : a.length + b.length = 0
  · rw [if_pos h]
    norm_num
  · rw [if_neg h]
    have h2 : (0 : ℚ) < (a.length : ℚ) + (b.length : ℚ) := by
      have : 0 < a.length + b.length := by omega
      exact_mod_cast this
    positivity

/-- `ratio()` is at most 1: the matched total is bounded by each sequence
length, so twice the total is bounded by their sum. -/
theorem pyRatio_le_one (a b : List Char) : pyRatio a b ≤ 1 := by
  unfold pyRatio
  by_cases h : a.length + b.length = 0
  · rw [if_pos h]
  · rw [if_neg h]
    have hM1 : mTotal a b ≤ a.length := by
      unfold mTotal
      simpa using mTotalF_le_a a b (pyIsJunk b) (a.length + b.length + 1)
        0 a.length 0 b.length (by omega) (by omega)
    have hM2 : mTotal a b ≤ b.length := by
      unfold mTotal
      simpa using mTotalF_le_b a b (pyIsJunk b) (a.length + b.length + 1)
        0 a.length 0 b.length (by omega) (by omega)
    have hT : (0 : ℚ) < (a.length : ℚ) + (b.length : ℚ) := by
      have : 0 < a.length + b.length := by omega
      exact_mod_cast this
    rw [div_le_one hT]
    have : 2 * mTotal a b ≤ a.length + b.length := by omega
    exact_mod_cast this

/-- A run starting inside both windows is empty when the sequences share no
character. -/
theorem jfRun_zero_of_disjoint (a b : List Char) (bj : Char → Bool)
    (h : ∀ c ∈ a, c ∉ b) (i j : Nat) (hi : i < a.length) (hj : j < b.length) :
    jfRun a b bj a.length b.length i j = 0 := by
  have hia : i < (a.take a.length).length := by
    rw [List.length_take]
    omega
  have hjb : j < (b.take b.length).length := by
    rw [List.length_take]
    omega
  unfold jfRun
  rw [List.drop_eq_getElem_cons hia, List.drop_eq_getElem_cons hjb]
  unfold runLen
  rw [if_neg]
  intro hc
  have hxa : (a.take a.length)[i] ∈ a := List.mem_of_mem_take (List.getElem_mem _)
  have hyb : (b.take b.length)[j] ∈ b := List.mem_of_mem_take (List.getElem_mem _)
  exact h _ hxa (hc.1 ▸ hyb)

/-- When the sequences share no character the matched total is zero. -/
theorem mTotal_zero_of_disjoint (a b : List Char)
    (h : ∀ c ∈ a, c ∉ b) : mTotal a b = 0 := by
  have hrun : ∀ p ∈ flmPairs 0 a.length 0 b.length,
      jfRun a b (pyIsJunk b) a.length b.length p.1 p.2 = 0 := by
    intro p hp
    obtain ⟨_, hp2, _, hp4⟩ := flmPairs_mem hp
    exact jfRun_zero_of_disjoint a b (pyIsJunk b) h p.1 p.2 hp2 hp4
  have hbest : bestJfMatch a b (pyIsJunk b) 0 a.length 0 b.length =
      (0, 0, 0) := by
    unfold bestJfMatch
    refine foldlPreserves _ (fun s => s = (0, 0, 0)) _ _ rfl ?_
    intro s p hp hs
    subst hs
    unfold flmStep
    rw [hrun p hp]
    rw [if_neg (by omega)]
  have hchar : ¬(a.getD 0 ' ' = b.getD 0 ' ') ∨ a.length = 0 ∨ b.length = 0 := by
    by_cases ha : a.length = 0
    · exact Or.inr (Or.inl ha)
    · by_cases hb : b.length = 0
      · exact Or.inr (Or.inr hb)
      · refine Or.inl ?_
        intro hc
        have hxa : a.getD 0 ' ' ∈ a := by
          rw [List.getD_eq_getElem a ' ' (by omega)]
          exact List.getElem_mem _
        have hyb : b.getD 0 ' ' ∈ b := by
          rw [List.getD_eq_getElem b ' ' (by omega)]
          exact List.getElem_mem _
        exact h _ hxa (hc ▸ hyb)
    
  have hflm : find_longest_match a b (pyIsJunk b) 0 a.length 0 b.length =
      (0, 0, 0) := by
    simp only [find_longest_match, hbest]
    rw [extNonJunkBack_stuck a b (pyIsJunk b) 0 0 0 (0, 0, 0)
      (fun hc => absurd hc.1 (lt_irrefl 0))]
    rw [extNonJunkFwd_stuck a b (pyIsJunk b) a.length b.length a.length
      (0, 0, 0) ?gd1]
    rw [extJunkBack_stuck a b (pyIsJunk b) 0 0 0 (0, 0, 0)
      (fun hc => absurd hc.1 (lt_irrefl 0))]
    rw [extJunkFwd_stuck a b (pyIsJunk b) a.length b.length a.length
      (0, 0, 0) ?gd2]
    case gd1 =>
      intro hc
      rcases hchar with hne | hz | hz
      · exact hne (by simpa using hc.2.2.2)
      · omega
      · omega
    case gd2 =>
      intro hc
      rcases hchar with hne | hz | hz
      · exact hne (by simpa using hc.2.2.2)
      · omega
      · omega
  unfold mTotal
  obtain ⟨f, hf⟩ : ∃ f, a.length + b.length + 1 = f + 1 :=
    ⟨a.length + b.length, rfl⟩
  rw [hf]
  show (let m := find_longest_match a b (pyIsJunk b) 0 a.length 0 b.length
    if m.2.2 = 0 then 0
    else mTotalF a b (pyIsJunk b) f 0 m.1 0 m.2.1 + m.2.2 +
      mTotalF a b (pyIsJunk b) f (m.1 + m.2.2) a.length (m.2.1 + m.2.2)
        b.length) = 0
  rw [hflm]
  rfl

/-- A string is empty iff its character list is. -/
theorem string_eq_empty_iff (s : String) : s = "" ↔ s.data = [] :=
  ⟨fun h => congrArg String.data h, fun h => congrArg String.mk h⟩

/-- `compute_similarity` is non-negative. -/
theorem compute_similarity_nonneg (a b : String) :
    0 ≤ compute_similarity a b := by
  unfold compute_similarity
  split
  · exact le_refl 0
  · exact pyRatio_nonneg _ _

/-- `compute_similarity` is at most one. -/
theorem compute_similarity_le_one (a b : String) :
    compute_similarity a b ≤ 1 := by
  unfold compute_similarity
  split
  · norm_num
  · exact pyRatio_le_one _ _

/-- Strings that agree after lower-casing have similarity exactly 1 (the
matcher compares the lower-cased strings, which are then equal and
non-empty). -/
theorem compute_similarity_one (a b : String) (ha : a ≠ "")
    (heq : pyLower b = pyLower a) : compute_similarity a b = 1 := by
  have hadata : a.data ≠ [] := fun hnil => ha ((string_eq_empty_iff a).mpr hnil)
  have hbne : b ≠ "" := by
    intro hb0
    subst hb0
    have hd : ([] : List Char) = a.data.map Char.toLower :=
      congrArg String.data heq
    exact hadata (List.map_eq_nil_iff.mp hd.symm)
  unfold compute_similarity
  rw [if_neg (by tauto)]
  have hdata : b.data.map Char.toLower = a.data.map Char.toLower :=
    congrArg String.data heq
  rw [hdata]
  refine pyRatio_self _ fun hnil => hadata (List.map_eq_nil_iff.mp hnil)

/-- `ratio()` is zero for non-trivially-empty character-disjoint inputs. -/
theorem pyRatio_zero_of_disjoint (x y : List Char)
    (hne : ¬(x.length + y.length = 0)) (h : ∀ c ∈ x, c ∉ y) :
    pyRatio x y = 0 := by
  unfold pyRatio
  rw [if_neg hne, mTotal_zero_of_disjoint x y h]
  norm_num

/-- `compute_similarity` is zero when either string is empty or the
lower-cased strings share no character. -/
theorem compute_similarity_zero (a b : String)
    (h : a = "" ∨ b = "" ∨ ∀ c ∈ (pyLower a).data, c ∉ (pyLower b).data) :
    compute_similarity a b = 0 := by
  by_cases hab : a = "" ∨ b = ""
  · unfold compute_similarity
    rw [if_pos hab]
  · have hd : ∀ c ∈ (pyLower a).data, c ∉ (pyLower b).data := by
      rcases h with h | h | h
      · exact absurd (Or.inl h) hab
      · exact absurd (Or.inr h) hab
      · exact h
    unfold compute_similarity
    rw [if_neg hab]
    refine pyRatio_zero_of_disjoint _ _ ?_ hd
    intro hlen
    rw [List.length_map, List.length_map] at hlen
    have ha : a.data = [] := by
      have := List.length_eq_zero.mp (by omega : a.data.length = 0)
      exact this
    exact hab (Or.inl ((string_eq_empty_iff a).mpr ha))

/-! ## Claim C6 — similarity function -/

/-- C6 counterexample: the similarity is not symmetric — the greedy
longest-match recursion of `SequenceMatcher` matches 2 characters of
`abxcdab` against `cdyab` but 4 in the reversed order — and two identical
empty strings score 0, not 1 (the empty-string guard fires first). -/
theorem compute_similarity_not_symmetric :
    compute_similarity "abxcdab" "cdyab" ≠ compute_similarity "cdyab" "abxcdab" ∧
      compute_similarity "" "" ≠ 1 := by
  constructor
  · have hm1 : mTotal ("abxcdab".data.map Char.toLower)
        ("cdyab".data.map Char.toLower) = 2 := by decide
    have hm2 : mTotal ("cdyab".data.map Char.toLower)
        ("abxcdab".data.map Char.toLower) = 4 := by decide
    have hl1 : ("abxcdab".data.map Char.toLower).length = 7 := by decide
    have hl2 : ("cdyab".data.map Char.toLower).length = 5 := by decide
    have e1 : compute_similarity "abxcdab" "cdyab" = 2 * (2 : ℚ) / (7 + 5) := by
      unfold compute_similarity
      rw [if_neg (by decide)]
      unfold pyRatio
      rw [if_neg (by decide), hm1, hl1, hl2]
      norm_num
    have e2 : compute_similarity "cdyab" "abxcdab" = 2 * (4 : ℚ) / (5 + 7) := by
      unfold compute_similarity
      rw [if_neg (by decide)]
      unfold pyRatio
      rw [if_neg (by decide), hm2, hl1, hl2]
      norm_num
    rw [e1, e2]
    norm_num
  · have e0 : compute_similarity "" "" = 0 := by
      unfold compute_similarity
      rw [if_pos (Or.inl rfl)]
    rw [e0]
    norm_num

/-- C6 amended: the similarity always lies in the closed unit interval,
equals 1 on identical non-empty strings, and equals 0 when either string is
empty or the lower-cased strings share no character; symmetry does not hold
in general. -/
theorem compute_similarity_props (a b : String) :
    (0 ≤ compute_similarity a b ∧ compute_similarity a b ≤ 1) ∧
    (a ≠ "" → compute_similarity a a = 1) ∧
    ((a = "" ∨ b = "" ∨ ∀ c ∈ (pyLower a).data, c ∉ (pyLower b).data) →
      compute_similarity a b = 0) :=
  ⟨⟨compute_similarity_nonneg a b, compute_similarity_le_one a b⟩,
    fun ha => compute_similarity_one a a ha rfl,
    compute_similarity_zero a b⟩

/-- C6 witness at concrete satisfying instances. -/
theorem compute_similarity_props_witness :
    compute_similarity "git" "git" = 1 ∧ compute_similarity "git" "qqq" = 0 := by
  refine ⟨(compute_similarity_props "git" "git").2.1 (by decide),
    (compute_similarity_props "git" "qqq").2.2 (Or.inr (Or.inr (by decide)))⟩

/-! ## Claims C1 and C5 — score range and the exact-id bonus -/

/-- A `max`-fold stays below any common upper bound. -/
theorem foldl_max_le (u : ℚ) :
    ∀ (l : List ℚ) (x0 : ℚ), x0 ≤ u → (∀ q ∈ l, q ≤ u) →
      l.foldl max x0 ≤ u := by
  intro l
  induction l with
  | nil => intro x0 h _; exact h
  | cons y l ih =>
    intro x0 h hall
    rw [List.foldl_cons]
    exact ih (max x0 y) (max_le h (hall y (by simp)))
      fun q hq => hall q (by simp [hq])

/-- A `max`-fold dominates its seed. -/
theorem le_foldl_max :
    ∀ (l : List ℚ) (x0 : ℚ), x0 ≤ l.foldl max x0 := by
  intro l
  induction l with
  | nil => intro x0; exact le_refl x0
  | cons y l ih =>
    intro x0
    rw [List.foldl_cons]
    exact le_trans (le_max_left x0 y) (ih (max x0 y))

/-- Every entry of the comparison list is a similarity, hence in `[0, 1]`. -/
theorem score_list_bounds (entry : PackageEntry) (mid : Option String)
    (c : SearchCandidate) :
    ∀ q ∈ score_list entry mid c, 0 ≤ q ∧ q ≤ 1 := by
  intro q hq
  unfold score_list at hq
  rw [List.mem_append, List.mem_append] at hq
  rcases hq with (hq | hq) | hq
  · rw [List.mem_singleton] at hq
    subst hq
    exact ⟨compute_similarity_nonneg _ _, compute_similarity_le_one _ _⟩
  · split at hq
    · rw [List.mem_cons, List.mem_singleton] at hq
      rcases hq with rfl | rfl
      · exact ⟨compute_similarity_nonneg _ _, compute_similarity_le_one _ _⟩
      · exact ⟨compute_similarity_nonneg _ _, compute_similarity_le_one _ _⟩
    · simp at hq
  · split at hq
    · rw [List.mem_singleton] at hq
      subst hq
      exact ⟨compute_similarity_nonneg _ _, compute_similarity_le_one _ _⟩
    · simp at hq

/-- The comparison list starts with the package-id/identifier similarity. -/
theorem score_list_head (entry : PackageEntry) (mid : Option String)
    (c : SearchCandidate) :
    score_list entry mid c =
      compute_similarity entry.package_id c.identifier ::
        (score_list entry mid c).tail := rfl

/-- The base score lies in `[0, 1]` and dominates the head similarity. -/
theorem score_base_bounds (entry : PackageEntry) (mid : Option String)
    (c : SearchCandidate) :
    (0 ≤ score_base entry mid c ∧ score_base entry mid c ≤ 1) ∧
      compute_similarity entry.package_id c.identifier ≤
        score_base entry mid c := by
  have hhead : (score_list entry mid c).headD 0 =
      compute_similarity entry.package_id c.identifier := rfl
  have hh := score_list_bounds entry mid c
    (compute_similarity entry.package_id c.identifier)
    (by rw [score_list_head]; exact List.mem_cons_self _ _)
  unfold score_base
  rw [hhead]
  refine ⟨⟨le_trans hh.1 (le_foldl_max _ _), ?_⟩, le_foldl_max _ _⟩
  exact foldl_max_le 1 _ _ hh.2
    fun q hq => (score_list_bounds entry mid c q (List.mem_of_mem_tail hq)).2

/-- Every bonus step keeps the score inside `[0, 1]`. -/
theorem score_steps_bounds (entry : PackageEntry) (mid : Option String)
    (c : SearchCandidate) :
    (0 ≤ score_base entry mid c ∧ score_base entry mid c ≤ 1) ∧
    (0 ≤ score_b1 entry mid c ∧ score_b1 entry mid c ≤ 1) ∧
    (0 ≤ score_b2 entry mid c ∧ score_b2 entry mid c ≤ 1) ∧
    (0 ≤ score_one entry mid c ∧ score_one entry mid c ≤ 1) := by
  have hb := (score_base_bounds entry mid c).1
  have h1 : 0 ≤ score_b1 entry mid c ∧ score_b1 entry mid c ≤ 1 := by
    unfold score_b1
    split
    · exact ⟨le_min (by linarith [hb.1]) (by norm_num), min_le_right _ _⟩
    · exact hb
  have h2 : 0 ≤ score_b2 entry mid c ∧ score_b2 entry mid c ≤ 1 := by
    unfold score_b2
    split
    · exact ⟨le_min (by linarith [h1.1]) (by norm_num), min_le_right _ _⟩
    · exact h1
  have h3 : 0 ≤ score_one entry mid c ∧ score_one entry mid c ≤ 1 := by
    unfold score_one
    split
    · exact ⟨le_min (by linarith [h2.1]) (by norm_num), min_le_right _ _⟩
    · exact h2
  exact ⟨hb, h1, h2, h3⟩

/-- C1: the base similarity maximum lies in `[0, 1]`, each additive bonus
step keeps the score in `[0, 1]`, and every scored suggestion produced by
`score_candidates` has its score in `[0, 1]`. -/
theorem score_candidates_unit_interval (entry : PackageEntry)
    (mid : Option String) (cs : List SearchCandidate) :
    (∀ c : SearchCandidate,
      (0 ≤ score_base entry mid c ∧ score_base entry mid c ≤ 1) ∧
      (0 ≤ score_b1 entry mid c ∧ score_b1 entry mid c ≤ 1) ∧
      (0 ≤ score_b2 entry mid c ∧ score_b2 entry mid c ≤ 1) ∧
      (0 ≤ score_one entry mid c ∧ score_one entry mid c ≤ 1)) ∧
    (∀ s ∈ score_candidates entry mid cs, 0 ≤ s.score ∧ s.score ≤ 1) := by
  refine ⟨fun c => score_steps_bounds entry mid c, ?_⟩
  intro s hs
  unfold score_candidates at hs
  rw [List.mem_mergeSort, List.mem_map] at hs
  obtain ⟨c, _, rfl⟩ := hs
  exact (score_steps_bounds entry mid c).2.2.2

/-- C1 witness: a concrete suggestion produced by the scorer has its score
inside the unit interval. -/
theorem score_candidates_unit_interval_witness :
    0 ≤ ((score_candidates
        ⟨"Foo", "winget", "winget install --id Foo --exact", "Foo", "f.yml", 1⟩
        none
        [⟨"winget", "Foo.Bar", "Foo Bar", [], "Foo", "Foo Bar  Foo.Bar  1.0"⟩]).headD
      ⟨0, "", "", "", [], "", ""⟩).score ∧
    ((score_candidates
        ⟨"Foo", "winget", "winget install --id Foo --exact", "Foo", "f.yml", 1⟩
        none
        [⟨"winget", "Foo.Bar", "Foo Bar", [], "Foo", "Foo Bar  Foo.Bar  1.0"⟩]).headD
      ⟨0, "", "", "", [], "", ""⟩).score ≤ 1 := by
  have hne : score_candidates
      ⟨"Foo", "winget", "winget install --id Foo --exact", "Foo", "f.yml", 1⟩
      none
      [⟨"winget", "Foo.Bar", "Foo Bar", [], "Foo", "Foo Bar  Foo.Bar  1.0"⟩] ≠ [] := by
    intro h
    have hlen := congrArg List.length h
    rw [score_candidates, List.length_mergeSort, List.length_map] at hlen
    simp at hlen
  have hmem : (score_candidates
      ⟨"Foo", "winget", "winget install --id Foo --exact", "Foo", "f.yml", 1⟩
      none
      [⟨"winget", "Foo.Bar", "Foo Bar", [], "Foo", "Foo Bar  Foo.Bar  1.0"⟩]).headD
      ⟨0, "", "", "", [], "", ""⟩ ∈ score_candidates
      ⟨"Foo", "winget", "winget install --id Foo --exact", "Foo", "f.yml", 1⟩
      none
      [⟨"winget", "Foo.Bar", "Foo Bar", [], "Foo", "Foo Bar  Foo.Bar  1.0"⟩] := by
    cases hl : score_candidates
        ⟨"Foo", "winget", "winget install --id Foo --exact", "Foo", "f.yml", 1⟩
        none
        [⟨"winget", "Foo.Bar", "Foo Bar", [], "Foo", "Foo Bar  Foo.Bar  1.0"⟩] with
    | nil => exact absurd hl hne
    | cons x xs => simp
  exact (score_candidates_unit_interval _ none _).2 _ hmem

/-- C5: when the candidate identifier equals the (non-empty) entry package
id case-insensitively, the final score after all bonuses and clamping is
exactly 1, whatever the other comparison pairs contribute: the base maximum
already contains the similarity of the two equal lower-cased strings, which
is 1, and each clamp keeps it at 1. -/
theorem score_exact_id_match_one (entry : PackageEntry) (mid : Option String)
    (c : SearchCandidate) (hid : entry.package_id ≠ "")
    (heq : pyLower c.identifier = pyLower entry.package_id) :
    score_one entry mid c = 1 := by
  have hs0 : compute_similarity entry.package_id c.identifier = 1 :=
    compute_similarity_one entry.package_id c.identifier hid heq
  have hbb := score_base_bounds entry mid c
  have hbase : score_base entry mid c = 1 := by
    have h1 := hbb.2
    rw [hs0] at h1
    exact le_antisymm hbb.1.2 h1
  have hb1 : score_b1 entry mid c = 1 := by
    unfold score_b1
    rw [if_pos heq, hbase]
    norm_num
  have hb2 : score_b2 entry mid c = 1 := by
    unfold score_b2
    split
    · rw [hb1]
      norm_num
    · exact hb1
  unfold score_one
  split
  · rw [hb2]
    norm_num
  · exact hb2

/-- C5 witness at a concrete satisfying instance. -/
theorem score_exact_id_match_one_witness :
    score_one ⟨"Foo.Bar", "winget", "cmd", "Foo", "f.yml", 1⟩ none
      ⟨"winget", "foo.bar", "Foo Bar", [], "q", "raw"⟩ = 1 := by
  exact score_exact_id_match_one _ none _ (by decide) (by decide)

/-! ## Claim C9 — the same-manager bonus is case-sensitive -/

/-- C9: every candidate parsed from a choco search carries the manager
string `choco`, and a candidate whose manager differs from the entry's
manager by as much as one character (including mere case) receives no
`+0.05` bonus: its final score is the value after the two identifier
bonuses.  In particular entries recorded under `chocolatey` never grant the
bonus to choco-search candidates. -/
theorem choco_manager_bonus_case_sensitive :
    (∀ output query : String, ∀ c ∈ parse_choco_output output query,
      c.manager = "choco") ∧
    (∀ (entry : PackageEntry) (mid : Option String) (c : SearchCandidate),
      c.manager ≠ entry.manager →
        score_one entry mid c = score_b2 entry mid c) := by
  constructor
  · intro output query c hc
    unfold parse_choco_output at hc
    rw [List.mem_filterMap] at hc
    obtain ⟨line, _, hline⟩ := hc
    simp only at hline
    split at hline
    · exact absurd hline (by simp)
    · rw [Option.some_inj] at hline
      rw [← hline]
  · intro entry mid c hne
    unfold score_one
    rw [if_neg hne]

/-- C9 witness at concrete satisfying instances. -/
theorem choco_manager_bonus_case_sensitive_witness :
    (⟨"choco", "foo", "foo", [("version", "1.0")], "q", "foo|1.0"⟩ :
        SearchCandidate).manager = "choco" ∧
    score_one ⟨"pkg", "chocolatey", "choco install pkg -y", "", "f.yml", 1⟩
        none ⟨"choco", "foo", "foo", [("version", "1.0")], "q", "foo|1.0"⟩ =
      score_b2 ⟨"pkg", "chocolatey", "choco install pkg -y", "", "f.yml", 1⟩
        none ⟨"choco", "foo", "foo", [("version", "1.0")], "q", "foo|1.0"⟩ := by
  refine ⟨choco_manager_bonus_case_sensitive.1 "foo|1.0" "q" _ ?_,
    choco_manager_bonus_case_sensitive.2 _ none _ (by decide)⟩
  decide

/-- C3 witness: a nonzero exit with whitespace-only output does raise. -/
theorem search_raises_iff_silent_failure_witness :
    isSearchFailure (search_winget_result 1 "   " "q") = true := by
  exact (search_raises_iff_silent_failure 1 "   " "q").1.mpr
    ⟨by decide, by decide⟩

/-- C4 witness: strict mode with one `ok` entry exits 0. -/
theorem availability_exit_code_spec_witness :
    availability_exit_code ["f.yml"]
      [⟨"Foo", "winget", "cmd", "Foo", "f.yml", 1⟩] true
      (fun _ => "ok") = 0 := by
  exact (availability_exit_code_spec ["f.yml"]
      [⟨"Foo", "winget", "cmd", "Foo", "f.yml", 1⟩] true (fun _ => "ok")).1.mpr
    ⟨by decide, Or.inr ⟨by decide, fun _ => by decide⟩⟩
